import Mathlib

/-!
# Verification of a parallel min/avg/max aggregator over `key;value` lines

This file gives a shallow embedding of the core of the program (`main.go`):
the chunk planner `calculateChunks`, the delimiter scanner
`readNameUntilSemicolon`, the fixed-decimal parser `parseTemp`, the chunk
scanner `processChunk`, the merge step of `MustRun`, and the formatter
`printResults`; and it proves properties of these definitions.

Modelling conventions:
* The memory-mapped file and every byte span is a `List Char` (the inputs are
  ASCII, where Go bytes and `Char`s coincide).
* Fixed-decimal values are embedded exactly, as the integer scaled by 100 that
  the source computes in its `int32` intermediate (`23.40` is `2340`); the
  externally visible value is this integer times `0.01`.  The source stores
  that value in a `float64`; every individual value within the grammar's
  range (at most `999.99` in magnitude) is carried exactly by the scaled
  integer, so `min`/`max`/`count` coincide with the source, and `sum` is the
  specification's decimal arithmetic total (source `float64` addition may
  round sums in the low bits, which the spec's decimal data model abstracts
  away).
* Go's byte-wrapping digit test `b[i]-'0' > 9` is embedded as the equivalent
  range test `'0' <= c && c <= '9'` (for bytes the two are the same).
* Fallible steps return `Option`/`Except String`, with the exact error text
  the source formats (`%q` adds plain double quotes on the texts at issue).
* The parallel workers of `MustRun` have no shared mutable state: worker `i`
  computes `processChunk data chunks[i]` and `errgroup.Wait` surfaces an
  error iff some worker erred; the merge loop then folds the per-worker
  results in worker-index order, which `mergeAllE` models.
-/

set_option maxHeartbeats 1600000

/-- Boolean test: the character is not a line terminator. -/
def notNL (c : Char) : Bool := c != '\n'

/-- Boolean test: the character is not the column delimiter. -/
def notSemi (c : Char) : Bool := c != ';'

/-- Boolean test: the character is not a decimal dot. -/
def notDot (c : Char) : Bool := c != '.'

/-- Does the list contain a semicolon? -/
def hasSemi (l : List Char) : Bool := l.any (fun c => c == ';')

/-- Decimal digit test, the embedding of Go's wrapping `b[i]-'0' > 9` check:
the byte is in the code range 48..57 (for bytes the two tests agree). -/
def isDig (c : Char) : Bool := decide (48 ≤ c.toNat ∧ c.toNat ≤ 57)

/-- Numeric value of a digit character. -/
def digVal (c : Char) : Nat := c.toNat - 48

/-- Keys are byte sequences compared by exact content. -/
abbrev Key := List Char

/-- Per-station statistics (`StationStats` in the source), with the decimal
fields carried as integers scaled by 100. -/
structure Stats where
  count : Nat
  minV : Int
  maxV : Int
  sumV : Int
  deriving DecidableEq, Repr

instance : Inhabited Stats := ⟨⟨0, 0, 0, 0⟩⟩

/-- The statistics of a single observed value. -/
def stat1 (t : Int) : Stats := ⟨1, t, t, t⟩

/-- Combining two statistics, as the scanner's per-line update rule does
(through the `*StationStats` pointer of the worker's local map). -/
def combine (a b : Stats) : Stats :=
  ⟨a.count + b.count, min a.minV b.minV, max a.maxV b.maxV, a.sumV + b.sumV⟩

/-- A key-to-statistics mapping, as an association list in insertion order
(the graph of the Go hash map, which is unordered). -/
abbrev SMap := List (Key × Stats)

/-- Insert one `(key, stats)` entry: combine with the existing entry of the
same key, or append a fresh entry. -/
def insEntry : SMap → Key × Stats → SMap
  | [], e => [e]
  | (k, s) :: rest, e => if e.1 = k then (k, combine s e.2) :: rest else (k, s) :: insEntry rest e

/-- Lookup by key. -/
def lookupM : SMap → Key → Option Stats
  | [], _ => none
  | (k, s) :: rest, q => if q = k then some s else lookupM rest q

/-- One step of the merge loop of `MustRun` (lines 124-131).  When the key is
already present, the Go code reads `existing` by value out of the
`map[string]StationStats`, updates the four fields on that local copy, and
never writes the combined struct back: the final mapping is left unchanged.
Only an absent key inserts the worker's entry. -/
def addFirst (a : SMap) (e : Key × Stats) : SMap :=
  if (lookupM a e.1).isSome then a else a ++ [e]

/-- Fold all entries of `b` into `a`, in `b`'s entry order: the per-key merge
loop of `MustRun` (lines 121-133).  Because the combined copy is discarded
(no write-back), for a key seen before, the earlier — lowest worker index —
statistics win. -/
def mergeMap (a b : SMap) : SMap := b.foldl addFirst a

/-- The key list of a mapping. -/
def keysOf (m : SMap) : List Key := m.map Prod.fst

/-- The keys are pairwise distinct (invariant of every mapping the scanner or
the merge builds). -/
def keysNodup (m : SMap) : Prop := (keysOf m).Nodup

deriving instance DecidableEq for Except

/-- First-wins choice of optional statistics: the per-key effect of the
merge loop, whose combined copy is never written back — an entry already
present (from a lower worker index) is kept unchanged. -/
def firstOpt : Option Stats → Option Stats → Option Stats
  | none, o => o
  | some s, _ => some s

/-- Index of the first occurrence of byte `t`, the embedding of
`strings.IndexByte`. -/
def scanFor (t : Char) : List Char → Option Nat
  | [] => none
  | c :: r => if c = t then some 0 else (scanFor t r).map (· + 1)

/-- The byte-by-byte fallback loop of `readNameUntilSemicolon` (`// tail`). -/
def tailScan : List Char → Nat → Option Nat
  | [], _ => none
  | c :: r, off => if c = ';' then some off else tailScan r (off + 1)

/-- The 8-byte-stride loop of `readNameUntilSemicolon`: returns the offset of
the first `;` just as the source's `goto END` does, or `none` for the
fall-through return.  The source guards the loop body with `len(s) > 7`;
here that guard is the 8-element head pattern (the byte tests `s[0]..s[7]`
become the tests on `a0..a7`, and `s = s[8:]` is the structural recursion on
`t`), and all shorter inputs fall to the `tail` loop as in the source. -/
def strideScan : List Char → Nat → Option Nat
  | a0 :: a1 :: a2 :: a3 :: a4 :: a5 :: a6 :: a7 :: t, off =>
    if a0 = ';' then some off
    else if a1 = ';' then some (off + 1)
    else if a2 = ';' then some (off + 2)
    else if a3 = ';' then some (off + 3)
    else if a4 = ';' then some (off + 4)
    else if a5 = ';' then some (off + 5)
    else if a6 = ';' then some (off + 6)
    else if a7 = ';' then some (off + 7)
    else strideScan t (off + 8)
  | s, off => tailScan s off

/-- `readNameUntilSemicolon` (source lines 170-221): the key is `input[:offset]`
when a `;` is found, the whole input otherwise. -/
def readNameUntilSemicolon (input : List Char) : Key :=
  match strideScan input 0 with
  | some off => input.take off
  | none => input

/-- The magnitude branch of `parseTemp` (the three dot-position cases of the
source's `switch`), operating past an already-consumed sign: returns the
value scaled by 100. -/
def parseTempAux (t : List Char) : Option Nat :=
  if 3 < t.length ∧ t.getD 1 ' ' = '.' then
    if isDig (t.getD 0 ' ') && isDig (t.getD 2 ' ') && isDig (t.getD 3 ' ') then
      some (digVal (t.getD 0 ' ') * 100 + (digVal (t.getD 2 ' ') * 10 + digVal (t.getD 3 ' ')))
    else none
  else if 4 < t.length ∧ t.getD 2 ' ' = '.' then
    if isDig (t.getD 0 ' ') && isDig (t.getD 1 ' ') && isDig (t.getD 3 ' ') && isDig (t.getD 4 ' ') then
      some ((digVal (t.getD 0 ' ') * 10 + digVal (t.getD 1 ' ')) * 100 +
        (digVal (t.getD 3 ' ') * 10 + digVal (t.getD 4 ' ')))
    else none
  else if 5 < t.length ∧ t.getD 3 ' ' = '.' then
    if isDig (t.getD 0 ' ') && isDig (t.getD 1 ' ') && isDig (t.getD 2 ' ') &&
        isDig (t.getD 4 ' ') && isDig (t.getD 5 ' ') then
      some ((digVal (t.getD 0 ' ') * 100 + digVal (t.getD 1 ' ') * 10 + digVal (t.getD 2 ' ')) * 100 +
        (digVal (t.getD 4 ' ') * 10 + digVal (t.getD 5 ' ')))
    else none
  else none

/-- `parseTemp` (source lines 329-397).  The result is the signed value scaled
by 100 (the source's exact `int32` intermediate `v`; the `float64` it returns
is `v * 0.01`). -/
def parseTemp (b : List Char) : Option Int :=
  if b.length < 4 then none
  else if b.getD 0 ' ' = '-' then
    if b.length - 1 < 4 then none
    else (parseTempAux b.tail).map (fun v => -(v : Int))
  else (parseTempAux b).map (fun v => (v : Int))

/-- Go's `%q` on the plain texts at issue: surrounding double quotes. -/
def quoteStr (l : List Char) : String := "\"" ++ l.asString ++ "\""

/-- The value text of the current line: everything after the first `;` up to
the next line terminator or the end of the chunk. -/
def valText (rem : List Char) : List Char :=
  (rem.drop ((readNameUntilSemicolon rem).length + 1)).takeWhile notNL

/-- Skip the line terminator the value scan stopped on, if any
(`if i < end && data[i] == '\n' { i++ }`). -/
def dropNL (l : List Char) : List Char := if l.head? = some '\n' then l.tail else l

/-- The remaining chunk bytes after consuming one `name;value(\n)` record. -/
def afterVal (rem : List Char) : List Char :=
  dropNL ((rem.drop ((readNameUntilSemicolon rem).length + 1)).drop
    (((rem.drop ((readNameUntilSemicolon rem).length + 1)).takeWhile notNL).length))

/-- The scanner loop of `processChunk` (source lines 228-268) over the
remaining bytes of the chunk, with an explicit step budget: stop without
error when no `;` is found in the remainder, abort the run on a malformed
value, otherwise accumulate and continue.  The budget only serves to make
the recursion structural; every record consumes at least one byte, so a
budget of the remainder's length (as `processRem` passes) never runs out —
see `processRem_unfold`. -/
def processRemF : Nat → List Char → SMap → Except String SMap
  | 0, _, m => .ok m
  | fuel + 1, rem, m =>
    if (readNameUntilSemicolon rem).length = rem.length then .ok m
    else
      match parseTemp (valText rem) with
      | none => .error ("malformed number: " ++ quoteStr (valText rem))
      | some t =>
        processRemF fuel (afterVal rem) (insEntry m (readNameUntilSemicolon rem, stat1 t))

/-- The scanner loop of `processChunk` over the remaining chunk bytes. -/
def processRem (rem : List Char) (m : SMap) : Except String SMap :=
  processRemF rem.length rem m

/-- The byte range of one chunk, as a slice of the mapped file. -/
def chunkSlice (data : List Char) (c : Nat × Nat) : List Char :=
  (data.drop c.1).take (c.2 - c.1)

/-- `processChunk` (source lines 223-271): scan one chunk into a fresh local
mapping. -/
def processChunk (data : List Char) (c : Nat × Nat) : Except String SMap :=
  processRem (chunkSlice data c) []

/-- The planner loop of `calculateChunks`: starting at `pos`, lay out `n`
chunks of target size `csize`, extending each across to the byte just after
the next line terminator (or clamping to `fsize`). -/
def calcLoop (data : List Char) (fsize csize : Nat) : Nat → Nat → List (Nat × Nat)
  | 0, _ => []
  | n + 1, pos =>
    (pos,
      if fsize ≤ pos + csize then fsize
      else
        match scanFor '\n' (data.drop (pos + csize)) with
        | some idx => pos + csize + idx + 1
        | none => fsize) ::
      calcLoop data fsize csize n
        (if fsize ≤ pos + csize then fsize
         else
           match scanFor '\n' (data.drop (pos + csize)) with
           | some idx => pos + csize + idx + 1
           | none => fsize)

/-- Force the last chunk's end to the file size
(`chunks[numWorkers-1][1] = fileSize`). -/
def setLastEnd : List (Nat × Nat) → Nat → List (Nat × Nat)
  | [], _ => []
  | [(s, _)], fsize => [(s, fsize)]
  | c :: rest, fsize => c :: setLastEnd rest fsize

/-- `calculateChunks` (source lines 142-168). -/
def calculateChunks (data : List Char) (fsize : Nat) (numWorkers : Nat) : List (Nat × Nat) :=
  setLastEnd (calcLoop data fsize (fsize / numWorkers) numWorkers 0) fsize

/-- Combine two worker outcomes: errors win (as `errgroup.Wait` reports an
error whenever some worker failed), otherwise fold the second mapping into
the first. -/
def mergeE (acc r : Except String SMap) : Except String SMap :=
  match acc, r with
  | .error e, _ => .error e
  | .ok _, .error e => .error e
  | .ok a, .ok m => .ok (mergeMap a m)

/-- Fold all worker results in worker-index order, starting from the empty
final mapping. -/
def mergeAllE (rs : List (Except String SMap)) : Except String SMap :=
  rs.foldl mergeE (.ok [])

/-- The list of per-worker results of `MustRun`: one `processChunk` outcome
per planned chunk. -/
def localResults (data : List Char) (w : Nat) : List (Except String SMap) :=
  (calculateChunks data data.length w).map (processChunk data)

/-- The merged FinalMapping of a run (or the run's failure). -/
def finalMapping (data : List Char) (w : Nat) : Except String SMap :=
  mergeAllE (localResults data w)

/-- Two fraction digits, zero-padded. -/
def pad2 (n : Nat) : String := if n < 10 then "0" ++ toString n else toString n

/-- Format a scaled-by-100 integer with exactly two digits after the dot
(`%.2f` on a value that is an exact multiple of 0.01). -/
def fmt2 (v : Int) : String :=
  (if v < 0 then "-" else "") ++ toString (v.natAbs / 100) ++ "." ++ pad2 (v.natAbs % 100)

/-- Round `num / den` to the nearest integer, ties to even (the rounding of
`%.2f` on the real-number average). -/
def roundHalfEven (num : Int) (den : Nat) : Int :=
  if 2 * (num - num.fdiv den * den) < den then num.fdiv den
  else if (den : Int) < 2 * (num - num.fdiv den * den) then num.fdiv den + 1
  else if num.fdiv den % 2 = 0 then num.fdiv den else num.fdiv den + 1

/-- The scaled average `sum / count` of one entry. -/
def avgOf (s : Stats) : Int := roundHalfEven s.sumV s.count

/-- One `min/avg/max` cell of the output. -/
def renderStats (s : Stats) : String :=
  fmt2 s.minV ++ "/" ++ fmt2 (avgOf s) ++ "/" ++ fmt2 s.maxV

/-- Byte-wise lexicographic order on keys (the order of `sort.Strings`). -/
def keyLeB : List Char → List Char → Bool
  | [], _ => true
  | _ :: _, [] => false
  | a :: as, b :: bs => if a < b then true else if b < a then false else keyLeB as bs

/-- `keyLeB` as a relation. -/
def keyLeP (a b : Key) : Prop := keyLeB a b = true

instance : DecidableRel keyLeP := fun a b => instDecidableEqBool (keyLeB a b) true

/-- Sort the station names ascending. -/
def sortKeys (ks : List Key) : List Key := List.insertionSort keyLeP ks

/-- `printResults` (source lines 273-290): sorted keys, `key=min/avg/max`
cells joined by comma-space, wrapped in braces, with a final terminator. -/
def renderMap (m : SMap) : String :=
  "\x7b" ++
    String.intercalate ", "
      ((sortKeys (keysOf m)).map (fun k =>
        k.asString ++ "=" ++
          (match lookupM m k with
           | some s => renderStats s
           | none => ""))) ++
    "\x7d\n"

/-- The run's rendered output (or its failure, in which case nothing is
printed to the output stream). -/
def runOutput (data : List Char) (w : Nat) : Except String String :=
  (finalMapping data w).map renderMap

/-- Modelled from the spec (section 4.3 Grammar accepted): an optional
leading `-`, then 1, 2, or 3 integer digits, a literal `.`, then exactly two
digits.  With `strict := false` the pattern need only be an initial segment
of the input (trailing bytes are tolerated). -/
def grammarCore (strict : Bool) (t : List Char) : Bool :=
  (decide (1 ≤ (t.takeWhile notDot).length) && decide ((t.takeWhile notDot).length ≤ 3)) &&
    (t.takeWhile notDot).all isDig &&
    (match t.drop (t.takeWhile notDot).length with
     | c1 :: f1 :: f2 :: tail =>
       decide (c1 = '.') && isDig f1 && isDig f2 && (!strict || tail.isEmpty)
     | _ => false)

/-- The fixed-decimal grammar of the spec, with an optional leading sign. -/
def grammarB (strict : Bool) (b : List Char) : Bool :=
  if b.head? = some '-' then grammarCore strict b.tail else grammarCore strict b

/-- Digits to a number, most significant first. -/
def natOfDigits (l : List Char) : Nat := l.foldl (fun a c => a * 10 + digVal c) 0

/-- Modelled from the spec (section 4.3 Semantics): the magnitude of a
grammar-conforming value, scaled by 100. -/
def specMagnitude (t : List Char) : Nat :=
  natOfDigits (t.takeWhile notDot) * 100 +
    natOfDigits ((t.drop ((t.takeWhile notDot).length + 1)).take 2)

/-- Modelled from the spec: the scaled integer of a value text, sign applied. -/
def specScaledValue (b : List Char) : Int :=
  if b.head? = some '-' then -(specMagnitude b.tail : Int) else (specMagnitude b : Int)

/-- Well-formed input data: every line (maximal `\n`-free segment, except a
trailing empty one) contains a `;`. -/
def wfData (d : List Char) : Bool :=
  if d.isEmpty then true
  else if h : (d.takeWhile notNL).length = d.length then hasSemi (d.takeWhile notNL)
  else hasSemi (d.takeWhile notNL) && wfData (d.drop ((d.takeWhile notNL).length + 1))
termination_by d.length
decreasing_by
  have htw : (d.takeWhile notNL).length ≤ d.length := by
    conv_rhs => rw [← List.takeWhile_append_dropWhile notNL d]
    rw [List.length_append]
    omega
  simp only [List.length_drop]
  omega

/-- A chunk made of whole terminated lines, each containing a `;`. -/
def wfTerminated (d : List Char) : Bool :=
  if d.isEmpty then true
  else if h : (d.takeWhile notNL).length = d.length then false
  else hasSemi (d.takeWhile notNL) && wfTerminated (d.drop ((d.takeWhile notNL).length + 1))
termination_by d.length
decreasing_by
  have htw : (d.takeWhile notNL).length ≤ d.length := by
    conv_rhs => rw [← List.takeWhile_append_dropWhile notNL d]
    rw [List.length_append]
    omega
  simp only [List.length_drop]
  omega

/-- All chunk contents are empty. -/
def allEmptyB (cs : List (List Char)) : Bool := cs.all (fun c => c.isEmpty)

/-- Planner-produced chunk contents: every chunk before the last ends just
after a line terminator (or is empty), except that once a chunk reaches the
end of the file all later chunks are empty. -/
def chunksWF : List (List Char) → Bool
  | [] => true
  | c :: rest => ((decide (c.getLast? = some '\n') || c.isEmpty) && chunksWF rest) || allEmptyB rest

/-- `ChainP p cs q`: the ranges in `cs` are contiguous, starting at `p` and
ending at `q`, each with `start ≤ end`. -/
inductive ChainP : Nat → List (Nat × Nat) → Nat → Prop
  | nil (p : Nat) : ChainP p [] p
  | cons (p e q : Nat) (rest : List (Nat × Nat)) :
      p ≤ e → ChainP e rest q → ChainP p ((p, e) :: rest) q

/-- Two mappings with the same key set and the same per-key statistics. -/
def MapEquiv (a b : SMap) : Prop :=
  (keysOf a).Perm (keysOf b) ∧ ∀ q, lookupM a q = lookupM b q

/-- Worker outcomes equal up to the entry order of the local mapping (the
iteration order of a Go map is unspecified). -/
def exceptPerm : Except String SMap → Except String SMap → Prop
  | .error e, .error e2 => e = e2
  | .ok a, .ok b => a.Perm b
  | _, _ => False

instance (x y : Except String SMap) : Decidable (exceptPerm x y) :=
  match x, y with
  | .error e, .error e2 => inferInstanceAs (Decidable (e = e2))
  | .ok a, .ok b => inferInstanceAs (Decidable (a.Perm b))
  | .error _, .ok _ => isFalse (fun h => h)
  | .ok _, .error _ => isFalse (fun h => h)

/-- Run outcomes with identical failure, or identical final statistics. -/
def exceptEquiv : Except String SMap → Except String SMap → Prop
  | .error e, .error e2 => e = e2
  | .ok a, .ok b => MapEquiv a b
  | _, _ => False

/-- A worker outcome whose mapping (if any) has pairwise distinct keys. -/
def okNodup : Except String SMap → Prop
  | .ok m => keysNodup m
  | .error _ => True

/-! ## Scanning: the stride scan equals the linear scan -/

theorem scanFor_eq_none_iff (t : Char) (l : List Char) : scanFor t l = none ↔ t ∉ l := by
  induction l with
  | nil => simp [scanFor]
  | cons c r ih =>
    simp only [scanFor, List.mem_cons]
    by_cases hc : c = t
    · subst hc; simp
    · have hct : ¬ t = c := fun he => hc he.symm
      cases h : scanFor t r with
      | none =>
        have hr : t ∉ r := ih.mp h
        simp [if_neg hc, hct, hr]
      | some j =>
        have hr : t ∈ r := by
          by_contra hn
          rw [ih.mpr hn] at h
          cases h
        simp [if_neg hc, hr]

theorem scanFor_some (t : Char) (l : List Char) (j : Nat) (h : scanFor t l = some j) :
    j < l.length ∧ l.getD j ' ' = t := by
  induction l generalizing j with
  | nil => simp [scanFor] at h
  | cons c r ih =>
    by_cases hc : c = t
    · simp [scanFor, hc] at h; subst h; simpa using hc
    · simp only [scanFor, if_neg hc] at h
      cases h2 : scanFor t r with
      | none => simp [h2] at h
      | some j2 =>
        simp [h2] at h
        subst h
        have hj := ih j2 h2
        refine ⟨by simp; omega, ?_⟩
        have hg : (c :: r).getD (j2 + 1) ' ' = r.getD j2 ' ' := by
          simp [List.getD]
        rw [hg]
        exact hj.2

theorem tailScan_eq (l : List Char) : ∀ off, tailScan l off = (scanFor ';' l).map (off + ·) := by
  induction l with
  | nil => intro off; simp [tailScan, scanFor]
  | cons c r ih =>
    intro off
    by_cases hc : c = ';'
    · simp [tailScan, scanFor, hc]
    · simp only [tailScan, scanFor, if_neg hc, ih (off + 1)]
      cases scanFor ';' r <;> simp <;> omega

theorem scanFor_shift (t : Char) (n : Nat) (s : List Char)
    (hn : n ≤ s.length) (h : ∀ i, i < n → s.getD i ' ' ≠ t) :
    scanFor t s = (scanFor t (s.drop n)).map (· + n) := by
  induction n generalizing s with
  | zero => simp
  | succ k ih =>
    cases s with
    | nil => simp at hn
    | cons c r =>
      have hc : c ≠ t := by have := h 0 (by omega); simpa [List.getD] using this
      have hr : scanFor t r = (scanFor t (r.drop k)).map (· + k) := by
        apply ih
        · simpa using hn
        · intro i hi
          have := h (i + 1) (by omega)
          simpa [List.getD] using this
      simp only [scanFor, if_neg hc, hr, List.drop_succ_cons]
      cases scanFor t (r.drop k) <;> simp <;> omega

theorem strideScan_eq_aux : ∀ (n : Nat) (s : List Char), s.length ≤ n → ∀ off,
    strideScan s off = (scanFor ';' s).map (off + ·) := by
  intro n
  induction n with
  | zero =>
    intro s hlen off
    have hs : s = [] := by
      cases s with
      | nil => rfl
      | cons a t => simp at hlen
    subst hs
    rfl
  | succ k ih =>
    intro s hlen off
    rcases s with _ | ⟨a0, _ | ⟨a1, _ | ⟨a2, _ | ⟨a3, _ | ⟨a4, _ | ⟨a5, _ | ⟨a6, _ | ⟨a7, t⟩⟩⟩⟩⟩⟩⟩⟩
    · rfl
    · exact tailScan_eq _ off
    · exact tailScan_eq _ off
    · exact tailScan_eq _ off
    · exact tailScan_eq _ off
    · exact tailScan_eq _ off
    · exact tailScan_eq _ off
    · exact tailScan_eq _ off
    · show (if a0 = ';' then some off
        else if a1 = ';' then some (off + 1)
        else if a2 = ';' then some (off + 2)
        else if a3 = ';' then some (off + 3)
        else if a4 = ';' then some (off + 4)
        else if a5 = ';' then some (off + 5)
        else if a6 = ';' then some (off + 6)
        else if a7 = ';' then some (off + 7)
        else strideScan t (off + 8)) = _
      by_cases h0 : a0 = ';'
      · rw [if_pos h0]
        simp [scanFor, h0]
      rw [if_neg h0]
      by_cases h1 : a1 = ';'
      · rw [if_pos h1]
        simp [scanFor, h0, h1]
      rw [if_neg h1]
      by_cases h2 : a2 = ';'
      · rw [if_pos h2]
        simp [scanFor, h0, h1, h2]
      rw [if_neg h2]
      by_cases h3 : a3 = ';'
      · rw [if_pos h3]
        simp [scanFor, h0, h1, h2, h3]
      rw [if_neg h3]
      by_cases h4 : a4 = ';'
      · rw [if_pos h4]
        simp [scanFor, h0, h1, h2, h3, h4]
      rw [if_neg h4]
      by_cases h5 : a5 = ';'
      · rw [if_pos h5]
        simp [scanFor, h0, h1, h2, h3, h4, h5]
      rw [if_neg h5]
      by_cases h6 : a6 = ';'
      · rw [if_pos h6]
        simp [scanFor, h0, h1, h2, h3, h4, h5, h6]
      rw [if_neg h6]
      by_cases h7 : a7 = ';'
      · rw [if_pos h7]
        simp [scanFor, h0, h1, h2, h3, h4, h5, h6, h7]
      rw [if_neg h7]
      rw [ih t (by simp at hlen ⊢; omega) (off + 8)]
      simp only [scanFor, if_neg h0, if_neg h1, if_neg h2, if_neg h3, if_neg h4, if_neg h5,
        if_neg h6, if_neg h7]
      cases scanFor ';' t <;> simp <;> omega

theorem strideScan_eq (s : List Char) (off : Nat) :
    strideScan s off = (scanFor ';' s).map (off + ·) :=
  strideScan_eq_aux s.length s (Nat.le_refl _) off

theorem takeWhile_scanFor (t : Char) (p : Char → Bool) (hp : ∀ c, p c = (c != t))
    (l : List Char) :
    l.takeWhile p =
      (match scanFor t l with
       | none => l
       | some j => l.take j) := by
  induction l with
  | nil => simp [scanFor]
  | cons c r ih =>
    by_cases hc : c = t
    · simp [scanFor, hc, List.takeWhile_cons, hp]
    · simp only [scanFor, if_neg hc, List.takeWhile_cons, hp c]
      have hcb : (c != t) = true := by simp [hc]
      rw [hcb]
      simp only [if_pos rfl]
      cases h2 : scanFor t r with
      | none => simp [h2] at ih; simpa using ih
      | some j => simp [h2] at ih; simp [ih, List.take_succ_cons]

theorem readName_eq (input : List Char) :
    readNameUntilSemicolon input = input.takeWhile notSemi := by
  unfold readNameUntilSemicolon
  rw [strideScan_eq, takeWhile_scanFor ';' notSemi (fun c => rfl)]
  cases scanFor ';' input <;> simp

theorem readName_no_semi (rem : List Char) (h : ';' ∉ rem) : readNameUntilSemicolon rem = rem := by
  rw [readName_eq]
  simp only [List.takeWhile_eq_self_iff]
  intro c hc
  simp only [notSemi, bne_iff_ne, ne_eq]
  rintro rfl
  exact h hc

theorem takeWhile_append_stop {p : Char → Bool} (a : List Char) (b : Char) (z : List Char)
    (ha : ∀ c ∈ a, p c = true) (hb : p b = false) :
    (a ++ b :: z).takeWhile p = a := by
  induction a with
  | nil => simp [List.takeWhile_cons, hb]
  | cons x xs ih =>
    have hx : p x = true := ha x (by simp)
    simp [List.takeWhile_cons, hx, ih (fun c hc => ha c (by simp [hc]))]

theorem drop_after (a : List Char) (c : Char) (z : List Char) :
    (a ++ c :: z).drop (a.length + 1) = z := by
  have h1 : a ++ c :: z = (a ++ [c]) ++ z := by simp
  rw [h1]
  have h2 : a.length + 1 = (a ++ [c]).length := by simp
  rw [h2, List.drop_left]

theorem takeWhile_len_le (p : Char → Bool) (l : List Char) :
    (l.takeWhile p).length ≤ l.length := by
  conv_rhs => rw [← List.takeWhile_append_dropWhile p l]
  rw [List.length_append]
  omega

theorem readName_len_le (rem : List Char) :
    (readNameUntilSemicolon rem).length ≤ rem.length := by
  rw [readName_eq]
  exact takeWhile_len_le _ _

theorem afterVal_lt (rem : List Char) (h : ¬ (readNameUntilSemicolon rem).length = rem.length) :
    (afterVal rem).length < rem.length := by
  have hb := readName_len_le rem
  have htw := takeWhile_len_le notNL (rem.drop ((readNameUntilSemicolon rem).length + 1))
  unfold afterVal dropNL
  split
  · rw [List.length_tail]
    simp only [List.length_drop]
    omega
  · simp only [List.length_drop]
    omega

theorem processRemF_mono_aux : ∀ (n fuel : Nat), fuel ≤ n → ∀ (rem : List Char) (m : SMap),
    rem.length ≤ fuel → processRemF fuel rem m = processRemF rem.length rem m := by
  intro n
  induction n with
  | zero =>
    intro fuel hf rem m hl
    have hf0 : fuel = 0 := by omega
    subst hf0
    have hr : rem = [] := by
      cases rem with
      | nil => rfl
      | cons c r => simp at hl
    subst hr
    rfl
  | succ nn ihn =>
    intro fuel hf rem m hl
    cases fuel with
    | zero =>
      have hr : rem = [] := by
        cases rem with
        | nil => rfl
        | cons c r => simp at hl
      subst hr
      rfl
    | succ k =>
      rcases rem with _ | ⟨c, r⟩
      · rfl
      · have hu : ∀ (f : Nat) (mm : SMap), processRemF (f + 1) (c :: r) mm =
            (if (readNameUntilSemicolon (c :: r)).length = (c :: r).length then Except.ok mm
             else
               match parseTemp (valText (c :: r)) with
               | none =>
                 Except.error ("malformed number: " ++ quoteStr (valText (c :: r)))
               | some t =>
                 processRemF f (afterVal (c :: r))
                   (insEntry mm (readNameUntilSemicolon (c :: r), stat1 t))) :=
          fun f mm => rfl
        rw [show (c :: r).length = r.length + 1 from rfl, hu k m, hu r.length m]
        by_cases h : (readNameUntilSemicolon (c :: r)).length = (c :: r).length
        · rw [if_pos h, if_pos h]
        · rw [if_neg h, if_neg h]
          cases hp : parseTemp (valText (c :: r)) with
          | none => rfl
          | some t =>
            have hlt : (afterVal (c :: r)).length < (c :: r).length := afterVal_lt _ h
            rw [List.length_cons] at hlt
            have hl2 : r.length + 1 ≤ k + 1 := by simpa using hl
            show processRemF k (afterVal (c :: r))
                (insEntry m (readNameUntilSemicolon (c :: r), stat1 t)) =
              processRemF r.length (afterVal (c :: r))
                (insEntry m (readNameUntilSemicolon (c :: r), stat1 t))
            rw [ihn k (by omega) (afterVal (c :: r)) _ (by omega)]
            rw [ihn r.length (by omega) (afterVal (c :: r)) _ (by omega)]

theorem processRemF_mono (fuel : Nat) (rem : List Char) (m : SMap) (h : rem.length ≤ fuel) :
    processRemF fuel rem m = processRem rem m :=
  processRemF_mono_aux fuel fuel (Nat.le_refl _) rem m h

theorem processRem_unfold (rem : List Char) (m : SMap) :
    processRem rem m =
      if (readNameUntilSemicolon rem).length = rem.length then .ok m
      else
        match parseTemp (valText rem) with
        | none => .error ("malformed number: " ++ quoteStr (valText rem))
        | some t =>
          processRem (afterVal rem) (insEntry m (readNameUntilSemicolon rem, stat1 t)) := by
  rcases rem with _ | ⟨c, r⟩
  · rfl
  · show processRemF (r.length + 1) (c :: r) m = _
    have hu : processRemF (r.length + 1) (c :: r) m =
        (if (readNameUntilSemicolon (c :: r)).length = (c :: r).length then Except.ok m
         else
           match parseTemp (valText (c :: r)) with
           | none => Except.error ("malformed number: " ++ quoteStr (valText (c :: r)))
           | some t =>
             processRemF r.length (afterVal (c :: r))
               (insEntry m (readNameUntilSemicolon (c :: r), stat1 t))) := rfl
    rw [hu]
    by_cases h : (readNameUntilSemicolon (c :: r)).length = (c :: r).length
    · rw [if_pos h, if_pos h]
    · rw [if_neg h, if_neg h]
      cases hp : parseTemp (valText (c :: r)) with
      | none => rfl
      | some t =>
        have hlt : (afterVal (c :: r)).length < (c :: r).length := afterVal_lt _ h
        rw [List.length_cons] at hlt
        exact processRemF_mono r.length (afterVal (c :: r)) _ (by omega)

theorem processRem_stop (rem : List Char) (m : SMap) (h : ';' ∉ rem) :
    processRem rem m = .ok m := by
  have hc : (readNameUntilSemicolon rem).length = rem.length := by
    rw [readName_no_semi rem h]
  rw [processRem_unfold, if_pos hc]

theorem processRem_step (key v rest : List Char) (m : SMap)
    (hk : ';' ∉ key) (hv : '\n' ∉ v) :
    processRem (key ++ ';' :: (v ++ '\n' :: rest)) m =
      match parseTemp v with
      | none => Except.error ("malformed number: " ++ quoteStr v)
      | some t => processRem rest (insEntry m (key, stat1 t)) := by
  have hname : readNameUntilSemicolon (key ++ ';' :: (v ++ '\n' :: rest)) = key := by
    rw [readName_eq]
    apply takeWhile_append_stop
    · intro c hc
      simp only [notSemi, bne_iff_ne, ne_eq]
      rintro rfl
      exact hk hc
    · simp [notSemi]
  have hlen : key.length ≠ (key ++ ';' :: (v ++ '\n' :: rest)).length := by
    simp only [List.length_append, List.length_cons]
    omega
  have hdrop : (key ++ ';' :: (v ++ '\n' :: rest)).drop (key.length + 1) = v ++ '\n' :: rest :=
    drop_after key ';' _
  have hval : valText (key ++ ';' :: (v ++ '\n' :: rest)) = v := by
    rw [valText, hname, hdrop]
    apply takeWhile_append_stop
    · intro c hc
      simp only [notNL, bne_iff_ne, ne_eq]
      rintro rfl
      exact hv hc
    · simp [notNL]
  have htw : (v ++ '\n' :: rest).takeWhile notNL = v := by
    apply takeWhile_append_stop
    · intro c hc
      simp only [notNL, bne_iff_ne, ne_eq]
      rintro rfl
      exact hv hc
    · simp [notNL]
  have hafter : afterVal (key ++ ';' :: (v ++ '\n' :: rest)) = rest := by
    rw [afterVal, hname, hdrop, htw, List.drop_left, dropNL]
    simp
  rw [processRem_unfold]
  rw [hname, hval, hafter]
  rw [if_neg hlen]

/-- C7: the 8-byte-stride delimiter scan of `readNameUntilSemicolon` is
functionally identical to a straightforward linear scan: it returns the bytes
strictly before the first `;`, and the whole input when no `;` occurs. -/
theorem c7_stride_scan_equals_linear_scan (s : List Char) :
    readNameUntilSemicolon s = s.takeWhile notSemi :=
  readName_eq s

/-- C6: a chunk whose remaining bytes contain no `;` (in particular an empty
chunk with `start = end`) stops scanning and yields the statistics
accumulated so far, without error and without extra rows. -/
theorem c6_missing_delimiter_stops_without_error :
    (∀ rem m, ';' ∉ rem → processRem rem m = Except.ok m) ∧
      (∀ data s, processChunk data (s, s) = Except.ok []) := by
  constructor
  · intro rem m h
    exact processRem_stop rem m h
  · intro data s
    have h0 : chunkSlice data (s, s) = [] := by simp [chunkSlice]
    show processRem (chunkSlice data (s, s)) [] = Except.ok []
    rw [h0]
    exact processRem_stop [] [] (by simp)

theorem c6_witness :
    processRem (['a', 'b', 'c'] : List Char) [] = Except.ok [] ∧
      processChunk (['x'] : List Char) (0, 0) = Except.ok [] :=
  ⟨c6_missing_delimiter_stops_without_error.1 ['a', 'b', 'c'] [] (by decide),
    c6_missing_delimiter_stops_without_error.2 ['x'] 0⟩

/-- C10: the delimiter search is bounded by the chunk end, not the current
line: a line without `;` followed by a later `;` in the same chunk does not
stop the scan or raise an error; instead everything up to that first later
`;`, line terminators included, becomes one key, and the bytes after it up to
the next terminator are parsed as this key's value. -/
theorem c10_delimiter_search_crosses_newlines (l1 r1 v rest : List Char) (m : SMap)
    (h1 : ';' ∉ l1) (h2 : ';' ∉ r1) (hv : '\n' ∉ v) :
    processRem (l1 ++ '\n' :: (r1 ++ ';' :: (v ++ '\n' :: rest))) m =
      match parseTemp v with
      | none => Except.error ("malformed number: " ++ quoteStr v)
      | some t => processRem rest (insEntry m (l1 ++ '\n' :: r1, stat1 t)) := by
  have hk : ';' ∉ l1 ++ '\n' :: r1 := by
    intro hc
    rcases List.mem_append.mp hc with hl | hr
    · exact h1 hl
    · rcases List.mem_cons.mp hr with he | hr2
      · exact absurd he (by decide)
      · exact h2 hr2
  have heq : l1 ++ '\n' :: (r1 ++ ';' :: (v ++ '\n' :: rest)) =
      (l1 ++ '\n' :: r1) ++ ';' :: (v ++ '\n' :: rest) := by simp
  rw [heq]
  exact processRem_step (l1 ++ '\n' :: r1) v rest m hk hv

theorem c10_witness :
    processRem ((['a', 'b'] ++ '\n' :: (['x'] ++ ';' :: ("1.00".data ++ '\n' :: []))) : List Char)
        [] =
      match parseTemp "1.00".data with
      | none => Except.error ("malformed number: " ++ quoteStr "1.00".data)
      | some t => processRem [] (insEntry [] (['a', 'b'] ++ '\n' :: ['x'], stat1 t)) :=
  c10_delimiter_search_crosses_newlines ['a', 'b'] ['x'] "1.00".data [] []
    (by decide) (by decide) (by decide)

/-! ## The fixed-decimal parser versus the spec grammar -/

theorem isDig_notDot (c : Char) (h : isDig c = true) : notDot c = true := by
  simp only [isDig, decide_eq_true_eq] at h
  simp only [notDot, bne_iff_ne, ne_eq]
  rintro rfl
  revert h
  decide

theorem isDig_ne_dot (c : Char) (h : isDig c = true) : c ≠ '.' := by
  rintro rfl
  revert h
  decide

theorem digVal_le_9 (c : Char) (h : isDig c = true) : digVal c ≤ 9 := by
  simp only [isDig, decide_eq_true_eq] at h
  unfold digVal
  omega

theorem natOfDigits1 (a : Char) : natOfDigits [a] = digVal a := by
  simp [natOfDigits]

theorem natOfDigits2 (a b : Char) : natOfDigits [a, b] = digVal a * 10 + digVal b := by
  simp [natOfDigits]

theorem natOfDigits3 (a b c : Char) :
    natOfDigits [a, b, c] = digVal a * 100 + digVal b * 10 + digVal c := by
  simp [natOfDigits]
  ring

theorem aux_of_shape (ip : List Char) (f1 f2 : Char) (tail : List Char)
    (h1 : 1 ≤ ip.length) (h2 : ip.length ≤ 3) (hall : ip.all isDig = true)
    (hf1 : isDig f1 = true) (hf2 : isDig f2 = true) :
    parseTempAux (ip ++ '.' :: f1 :: f2 :: tail) =
      some (natOfDigits ip * 100 + (digVal f1 * 10 + digVal f2)) := by
  rcases ip with _ | ⟨a, _ | ⟨b, _ | ⟨c, _ | ⟨d, rest⟩⟩⟩⟩
  · simp at h1
  · simp only [List.all_cons, List.all_nil, Bool.and_true] at hall
    show parseTempAux (a :: '.' :: f1 :: f2 :: tail) = _
    unfold parseTempAux
    rw [if_pos ⟨by simp only [List.length_cons]; omega, rfl⟩]
    rw [if_pos (by simp only [List.getD]; simp [hall, hf1, hf2])]
    rw [natOfDigits1]
    rfl
  · simp only [List.all_cons, List.all_nil, Bool.and_true, Bool.and_eq_true] at hall
    show parseTempAux (a :: b :: '.' :: f1 :: f2 :: tail) = _
    unfold parseTempAux
    rw [if_neg (fun hc => isDig_ne_dot b hall.2 hc.2)]
    rw [if_pos ⟨by simp only [List.length_cons]; omega, rfl⟩]
    rw [if_pos (by simp only [List.getD]; simp [hall.1, hall.2, hf1, hf2])]
    rw [natOfDigits2]
    rfl
  · simp only [List.all_cons, List.all_nil, Bool.and_true, Bool.and_eq_true] at hall
    show parseTempAux (a :: b :: c :: '.' :: f1 :: f2 :: tail) = _
    unfold parseTempAux
    rw [if_neg (fun hc => isDig_ne_dot b hall.2.1 hc.2)]
    rw [if_neg (fun hc => isDig_ne_dot c hall.2.2 hc.2)]
    rw [if_pos ⟨by simp only [List.length_cons]; omega, rfl⟩]
    rw [if_pos (by simp only [List.getD]; simp [hall.1, hall.2.1, hall.2.2, hf1, hf2])]
    rw [natOfDigits3]
    rfl
  · simp only [List.length_cons] at h2
    omega

theorem grammarCore_of_shape (strict : Bool) (ip : List Char) (f1 f2 : Char) (tail : List Char)
    (h1 : 1 ≤ ip.length) (h2 : ip.length ≤ 3) (hall : ip.all isDig = true)
    (hf1 : isDig f1 = true) (hf2 : isDig f2 = true) (hst : strict = true → tail = []) :
    grammarCore strict (ip ++ '.' :: f1 :: f2 :: tail) = true := by
  have htw : (ip ++ '.' :: f1 :: f2 :: tail).takeWhile notDot = ip := by
    apply takeWhile_append_stop
    · intro x hx
      exact isDig_notDot x (List.all_eq_true.mp hall x hx)
    · simp [notDot]
  unfold grammarCore
  rw [htw, List.drop_left]
  cases strict
  · simp [h1, h2, hall, hf1, hf2]
  · simp [h1, h2, hall, hf1, hf2, hst rfl]

theorem grammarCore_true_elim (strict : Bool) (t : List Char) (h : grammarCore strict t = true) :
    ∃ f1 f2 tail,
      t = t.takeWhile notDot ++ '.' :: f1 :: f2 :: tail ∧
      1 ≤ (t.takeWhile notDot).length ∧ (t.takeWhile notDot).length ≤ 3 ∧
      (t.takeWhile notDot).all isDig = true ∧ isDig f1 = true ∧ isDig f2 = true ∧
      (strict = true → tail = []) := by
  unfold grammarCore at h
  rcases hdrop : t.drop (t.takeWhile notDot).length with _ | ⟨c1, l1⟩
  · rw [hdrop] at h
    simp at h
  rcases l1 with _ | ⟨c2, l2⟩
  · rw [hdrop] at h
    simp at h
  rcases l2 with _ | ⟨c3, l3⟩
  · rw [hdrop] at h
    simp at h
  rw [hdrop] at h
  simp only [Bool.and_eq_true, decide_eq_true_eq] at h
  obtain ⟨⟨⟨hl1, hl2⟩, hall⟩, ⟨⟨hc1, hf1⟩, hf2⟩, hrest⟩ := h
  subst hc1
  refine ⟨c2, c3, l3, ?_, hl1, hl2, hall, hf1, hf2, ?_⟩
  · conv_lhs => rw [← List.take_append_drop (t.takeWhile notDot).length t]
    rw [hdrop]
    congr 1
    exact (List.prefix_iff_eq_take.mp (List.takeWhile_prefix notDot)).symm
  · intro hs
    subst hs
    simpa using hrest

theorem grammarCore_len (strict : Bool) (t : List Char) (h : grammarCore strict t = true) :
    4 ≤ t.length := by
  obtain ⟨f1, f2, tail, ht, h1, _, _, _, _, _⟩ := grammarCore_true_elim strict t h
  rw [ht]
  simp only [List.length_append, List.length_cons]
  omega

theorem parseTempAux_some_imp (t : List Char) (h : (parseTempAux t).isSome = true) :
    grammarCore false t = true := by
  unfold parseTempAux at h
  by_cases g1 : 3 < t.length ∧ t.getD 1 ' ' = '.'
  · rw [if_pos g1] at h
    by_cases gd : (isDig (t.getD 0 ' ') && isDig (t.getD 2 ' ') && isDig (t.getD 3 ' ')) = true
    case neg =>
      rw [if_neg gd] at h
      simp at h
    obtain ⟨hlen, hdot⟩ := g1
    rcases t with _ | ⟨x0, _ | ⟨x1, _ | ⟨x2, _ | ⟨x3, rest⟩⟩⟩⟩
    · simp at hlen
    · simp at hlen
    · simp at hlen
    · simp at hlen
    · have hx1 : x1 = '.' := by
        simpa [List.getD_cons_zero, List.getD_cons_succ] using hdot
      subst hx1
      simp only [List.getD_cons_zero, List.getD_cons_succ, Bool.and_eq_true] at gd
      have := grammarCore_of_shape false [x0] x2 x3 rest (by simp) (by simp)
        (by simp [gd.1.1]) gd.1.2 gd.2 (by intro hc; cases hc)
      simpa using this
  · rw [if_neg g1] at h
    by_cases g2 : 4 < t.length ∧ t.getD 2 ' ' = '.'
    · rw [if_pos g2] at h
      by_cases gd : (isDig (t.getD 0 ' ') && isDig (t.getD 1 ' ') && isDig (t.getD 3 ' ') &&
          isDig (t.getD 4 ' ')) = true
      case neg =>
        rw [if_neg gd] at h
        simp at h
      obtain ⟨hlen, hdot⟩ := g2
      rcases t with _ | ⟨x0, _ | ⟨x1, _ | ⟨x2, _ | ⟨x3, _ | ⟨x4, rest⟩⟩⟩⟩⟩
      · simp at hlen
      · simp at hlen
      · simp at hlen
      · simp at hlen
      · simp at hlen
      · have hx2 : x2 = '.' := by
          simpa [List.getD_cons_zero, List.getD_cons_succ] using hdot
        subst hx2
        simp only [List.getD_cons_zero, List.getD_cons_succ, Bool.and_eq_true] at gd
        have := grammarCore_of_shape false [x0, x1] x3 x4 rest (by simp) (by simp)
          (by simp [gd.1.1.1, gd.1.1.2]) gd.1.2 gd.2 (by intro hc; cases hc)
        simpa using this
    · rw [if_neg g2] at h
      by_cases g3 : 5 < t.length ∧ t.getD 3 ' ' = '.'
      · rw [if_pos g3] at h
        by_cases gd : (isDig (t.getD 0 ' ') && isDig (t.getD 1 ' ') && isDig (t.getD 2 ' ') &&
            isDig (t.getD 4 ' ') && isDig (t.getD 5 ' ')) = true
        case neg =>
          rw [if_neg gd] at h
          simp at h
        obtain ⟨hlen, hdot⟩ := g3
        rcases t with _ | ⟨x0, _ | ⟨x1, _ | ⟨x2, _ | ⟨x3, _ | ⟨x4, _ | ⟨x5, rest⟩⟩⟩⟩⟩⟩
        · simp at hlen
        · simp at hlen
        · simp at hlen
        · simp at hlen
        · simp at hlen
        · simp at hlen
        · have hx3 : x3 = '.' := by
            simpa [List.getD_cons_zero, List.getD_cons_succ] using hdot
          subst hx3
          simp only [List.getD_cons_zero, List.getD_cons_succ, Bool.and_eq_true] at gd
          have := grammarCore_of_shape false [x0, x1, x2] x4 x5 rest (by simp) (by simp)
            (by simp [gd.1.1.1.1, gd.1.1.1.2, gd.1.1.2]) gd.1.2 gd.2 (by intro hc; cases hc)
          simpa using this
      · rw [if_neg g3] at h
        simp at h

theorem parseTempAux_isSome (t : List Char) : (parseTempAux t).isSome = grammarCore false t := by
  by_cases hg : grammarCore false t = true
  · rw [hg]
    obtain ⟨f1, f2, tail, ht, h1, h2, hall, hf1, hf2, _⟩ := grammarCore_true_elim false t hg
    conv_lhs => rw [ht]
    rw [aux_of_shape _ f1 f2 tail h1 h2 hall hf1 hf2]
    rfl
  · have hg2 : grammarCore false t = false := by
      cases hgc : grammarCore false t
      · rfl
      · exact absurd hgc hg
    rw [hg2]
    cases hs : (parseTempAux t).isSome
    · rfl
    · exact absurd (parseTempAux_some_imp t hs) hg

theorem parseTemp_isSome_eq (b : List Char) : (parseTemp b).isSome = grammarB false b := by
  rcases b with _ | ⟨c0, t⟩
  · decide
  · by_cases hneg : c0 = '-'
    · subst hneg
      by_cases hlen : t.length < 4
      · have hg : grammarB false ('-' :: t) = false := by
          have hh : grammarB false ('-' :: t) = grammarCore false t := by simp [grammarB]
          rw [hh]
          cases hgc : grammarCore false t
          · rfl
          · exact absurd (grammarCore_len false t hgc) (by omega)
        rw [hg]
        unfold parseTemp
        by_cases h4 : ('-' :: t).length < 4
        · rw [if_pos h4]
          rfl
        · rw [if_neg h4, if_pos (show ('-' :: t).getD 0 ' ' = '-' from rfl),
            if_pos (by simp only [List.length_cons]; omega)]
          rfl
      · unfold parseTemp
        rw [if_neg (by simp only [List.length_cons]; omega),
          if_pos (show ('-' :: t).getD 0 ' ' = '-' from rfl),
          if_neg (by simp only [List.length_cons]; omega)]
        simp only [List.tail_cons]
        have hh : grammarB false ('-' :: t) = grammarCore false t := by simp [grammarB]
        rw [hh, ← parseTempAux_isSome]
        cases parseTempAux t <;> simp
    · unfold parseTemp
      have hd0 : (c0 :: t).getD 0 ' ' = c0 := rfl
      have hh : grammarB false (c0 :: t) = grammarCore false (c0 :: t) := by
        simp [grammarB, hneg]
      by_cases h4 : (c0 :: t).length < 4
      · rw [if_pos h4, hh]
        cases hgc : grammarCore false (c0 :: t)
        · rfl
        · exact absurd (grammarCore_len false _ hgc)
            (by simp only [List.length_cons] at h4 ⊢; omega)
      · rw [if_neg h4, if_neg (by rw [hd0]; exact hneg)]
        rw [hh, ← parseTempAux_isSome]
        cases parseTempAux (c0 :: t) <;> simp

/-- C2 (amended): `parseTemp` accepts exactly the byte strings that begin
with the fixed-decimal pattern — optional leading `-`, then 1, 2, or 3
digits, a literal `.`, then two digits — with arbitrary trailing bytes after
the two fraction digits tolerated and ignored (the source never checks that
the second fraction digit is the end of the input). -/
theorem c2_parse_accepts_exactly_grammar_with_trailing_bytes (b : List Char) :
    (parseTemp b).isSome = grammarB false b :=
  parseTemp_isSome_eq b

/-- C2 counterexample: `"0.001"` does not match the exact fixed-decimal
grammar (wrong digit count / extra byte after the two fraction digits), yet
`parseTemp` accepts it, as the scaled value 0. -/
theorem c2_counterexample :
    parseTemp "0.001".data = some 0 ∧ grammarB true "0.001".data = false := by
  decide

theorem specMagnitude_of_shape (ip : List Char) (f1 f2 : Char) (tail t : List Char)
    (ht : t = ip ++ '.' :: f1 :: f2 :: tail) (htw : t.takeWhile notDot = ip) :
    specMagnitude t = natOfDigits ip * 100 + (digVal f1 * 10 + digVal f2) := by
  unfold specMagnitude
  rw [htw, ht, drop_after]
  congr 1
  rw [show (f1 :: f2 :: tail).take 2 = [f1, f2] from by simp [List.take_succ_cons]]
  rw [natOfDigits2]

theorem natOfDigits_le_999 (ip : List Char) (h2 : ip.length ≤ 3) (hall : ip.all isDig = true) :
    natOfDigits ip ≤ 999 := by
  rcases ip with _ | ⟨a, _ | ⟨b, _ | ⟨c, _ | ⟨d, r⟩⟩⟩⟩
  · simp [natOfDigits]
  · simp only [List.all_cons, List.all_nil, Bool.and_true] at hall
    have := digVal_le_9 a hall
    rw [natOfDigits1]
    omega
  · simp only [List.all_cons, List.all_nil, Bool.and_true, Bool.and_eq_true] at hall
    have ha := digVal_le_9 a hall.1
    have hb := digVal_le_9 b hall.2
    rw [natOfDigits2]
    omega
  · simp only [List.all_cons, List.all_nil, Bool.and_true, Bool.and_eq_true] at hall
    have ha := digVal_le_9 a hall.1
    have hb := digVal_le_9 b hall.2.1
    have hc := digVal_le_9 c hall.2.2
    rw [natOfDigits3]
    omega
  · simp at h2

/-- C8: every value text matching the exact fixed-decimal grammar parses
successfully, and the parsed value is the signed digits-as-integer scaled by
100 that the spec prescribes; the scaled intermediate is at most 99999 in
magnitude, well inside `int32` (no overflow within ±999.99). -/
theorem c8_parse_returns_exact_scaled_integer (b : List Char) (h : grammarB true b = true) :
    parseTemp b = some (specScaledValue b) ∧ (specScaledValue b).natAbs ≤ 99999 := by
  rcases b with _ | ⟨c0, t⟩
  · exact absurd h (by decide)
  · by_cases hneg : c0 = '-'
    · subst hneg
      have hg : grammarCore true t = true := by
        simpa [grammarB] using h
      obtain ⟨f1, f2, tail, ht, h1, h2, hall, hf1, hf2, hstrict⟩ := grammarCore_true_elim true t hg
      have hlen4 : 4 ≤ t.length := grammarCore_len true t hg
      have hsp : specScaledValue ('-' :: t) = -(specMagnitude t : Int) := by
        simp [specScaledValue]
      have hmag : specMagnitude t =
          natOfDigits (t.takeWhile notDot) * 100 + (digVal f1 * 10 + digVal f2) :=
        specMagnitude_of_shape (t.takeWhile notDot) f1 f2 tail t ht rfl
      have hbound : specMagnitude t ≤ 99999 := by
        have hip := natOfDigits_le_999 (t.takeWhile notDot) h2 hall
        have hb1 := digVal_le_9 f1 hf1
        have hb2 := digVal_le_9 f2 hf2
        rw [hmag]
        omega
      constructor
      · unfold parseTemp
        rw [if_neg (by simp only [List.length_cons]; omega),
          if_pos (show ('-' :: t).getD 0 ' ' = '-' from rfl),
          if_neg (by simp only [List.length_cons]; omega)]
        simp only [List.tail_cons]
        conv_lhs => rw [ht]
        rw [aux_of_shape _ f1 f2 tail h1 h2 hall hf1 hf2]
        rw [hsp, hmag]
        simp
      · rw [hsp]
        simp only [Int.natAbs_neg, Int.natAbs_ofNat]
        exact hbound
    · have hg : grammarCore true (c0 :: t) = true := by
        simpa [grammarB, hneg] using h
      obtain ⟨f1, f2, tail, ht, h1, h2, hall, hf1, hf2, hstrict⟩ :=
        grammarCore_true_elim true (c0 :: t) hg
      have hlen4 : 4 ≤ (c0 :: t).length := grammarCore_len true _ hg
      have hsp : specScaledValue (c0 :: t) = (specMagnitude (c0 :: t) : Int) := by
        simp [specScaledValue, hneg]
      have hmag : specMagnitude (c0 :: t) =
          natOfDigits ((c0 :: t).takeWhile notDot) * 100 + (digVal f1 * 10 + digVal f2) :=
        specMagnitude_of_shape ((c0 :: t).takeWhile notDot) f1 f2 tail (c0 :: t) ht rfl
      have hbound : specMagnitude (c0 :: t) ≤ 99999 := by
        have hip := natOfDigits_le_999 ((c0 :: t).takeWhile notDot) h2 hall
        have hb1 := digVal_le_9 f1 hf1
        have hb2 := digVal_le_9 f2 hf2
        rw [hmag]
        omega
      constructor
      · unfold parseTemp
        rw [if_neg (by omega), if_neg (show ¬((c0 :: t).getD 0 ' ' = '-') from hneg)]
        conv_lhs => rw [ht]
        rw [aux_of_shape _ f1 f2 tail h1 h2 hall hf1 hf2]
        rw [hsp, hmag]
        simp
      · rw [hsp]
        simp only [Int.natAbs_ofNat]
        exact hbound

theorem c8_witness :
    parseTemp "-99.99".data = some (specScaledValue "-99.99".data) ∧
      (specScaledValue "-99.99".data).natAbs ≤ 99999 :=
  c8_parse_returns_exact_scaled_integer "-99.99".data (by decide)

/-! ## The mapping algebra -/

theorem combine_assoc (x y z : Stats) : combine (combine x y) z = combine x (combine y z) := by
  simp [combine, Nat.add_assoc, Int.add_assoc, min_assoc, max_assoc]

theorem lookupM_insEntry (m : SMap) (k : Key) (s : Stats) (q : Key) :
    lookupM (insEntry m (k, s)) q =
      if q = k then
        match lookupM m k with
        | some s0 => some (combine s0 s)
        | none => some s
      else lookupM m q := by
  induction m with
  | nil => by_cases hq : q = k <;> simp [insEntry, lookupM, hq]
  | cons e rest ih =>
    obtain ⟨k0, s0⟩ := e
    by_cases hk : k = k0
    · subst hk
      by_cases hq : q = k
      · subst hq
        simp [insEntry, lookupM]
      · simp [insEntry, lookupM, hq]
    · by_cases hq : q = k0
      · subst hq
        have hqk : ¬ q = k := fun he => hk he.symm
        simp [insEntry, lookupM, hk, hqk]
      · simp [insEntry, lookupM, hk, hq, ih]

theorem keysOf_insEntry (m : SMap) (k : Key) (s : Stats) :
    keysOf (insEntry m (k, s)) = if k ∈ keysOf m then keysOf m else keysOf m ++ [k] := by
  induction m with
  | nil => simp [insEntry, keysOf]
  | cons e rest ih =>
    obtain ⟨k0, s0⟩ := e
    by_cases hk : k = k0
    · subst hk
      have hins : insEntry ((k, s0) :: rest) (k, s) = (k, combine s0 s) :: rest := by
        simp [insEntry]
      rw [hins]
      have h1 : keysOf ((k, combine s0 s) :: rest) = k :: keysOf rest := rfl
      have h2 : keysOf ((k, s0) :: rest) = k :: keysOf rest := rfl
      rw [h1, h2, if_pos (by simp)]
    · have hins : insEntry ((k0, s0) :: rest) (k, s) = (k0, s0) :: insEntry rest (k, s) := by
        simp [insEntry, hk]
      rw [hins]
      have h1 : keysOf ((k0, s0) :: insEntry rest (k, s)) = k0 :: keysOf (insEntry rest (k, s)) :=
        rfl
      have h2 : keysOf ((k0, s0) :: rest) = k0 :: keysOf rest := rfl
      rw [h1, h2, ih]
      by_cases hm : k ∈ keysOf rest
      · rw [if_pos hm, if_pos (by simp [hm])]
      · rw [if_neg hm, if_neg (by simp [hm, hk])]
        simp

theorem lookupM_eq_none (m : SMap) (q : Key) (h : q ∉ keysOf m) : lookupM m q = none := by
  induction m with
  | nil => simp [lookupM]
  | cons e rest ih =>
    obtain ⟨k0, s0⟩ := e
    simp only [keysOf, List.map_cons, List.mem_cons] at h
    push_neg at h
    simp only [lookupM, if_neg h.1]
    exact ih (by simpa [keysOf] using h.2)

theorem keysNodup_insEntry (m : SMap) (k : Key) (s : Stats) (h : keysNodup m) :
    keysNodup (insEntry m (k, s)) := by
  unfold keysNodup at h ⊢
  rw [keysOf_insEntry]
  split
  · exact h
  · rename_i hm
    rw [List.nodup_append]
    refine ⟨h, List.nodup_singleton k, ?_⟩
    intro x hx hxk
    rw [List.mem_singleton] at hxk
    subst hxk
    exact hm hx

theorem firstOpt_assoc (x y z : Option Stats) :
    firstOpt (firstOpt x y) z = firstOpt x (firstOpt y z) := by
  cases x <;> rfl

theorem lookupM_append (a l : SMap) (q : Key) :
    lookupM (a ++ l) q = firstOpt (lookupM a q) (lookupM l q) := by
  induction a with
  | nil => rfl
  | cons e r ih =>
    obtain ⟨k, s⟩ := e
    show (if q = k then some s else lookupM (r ++ l) q) =
      firstOpt (if q = k then some s else lookupM r q) (lookupM l q)
    by_cases hq : q = k
    · rw [if_pos hq, if_pos hq]
      rfl
    · rw [if_neg hq, if_neg hq]
      exact ih

theorem lookupM_isSome_of_mem (m : SMap) (q : Key) (h : q ∈ keysOf m) :
    (lookupM m q).isSome = true := by
  induction m with
  | nil => simp [keysOf] at h
  | cons e r ih =>
    obtain ⟨k, s⟩ := e
    show (if q = k then some s else lookupM r q).isSome = true
    by_cases hq : q = k
    · rw [if_pos hq]
      rfl
    · rw [if_neg hq]
      apply ih
      have h2 : q ∈ k :: keysOf r := h
      rcases List.mem_cons.mp h2 with he | hr
      · exact absurd he hq
      · exact hr

theorem lookupM_mergeMap (a b : SMap) (q : Key) :
    lookupM (mergeMap a b) q = firstOpt (lookupM a q) (lookupM b q) := by
  induction b generalizing a with
  | nil =>
    show lookupM a q = firstOpt (lookupM a q) none
    cases lookupM a q <;> rfl
  | cons e b2 ih =>
    obtain ⟨k, s⟩ := e
    have hfold : mergeMap a ((k, s) :: b2) = mergeMap (addFirst a (k, s)) b2 := rfl
    rw [hfold, ih (addFirst a (k, s))]
    show firstOpt (lookupM (if (lookupM a k).isSome then a else a ++ [(k, s)]) q)
        (lookupM b2 q) =
      firstOpt (lookupM a q) (lookupM ((k, s) :: b2) q)
    by_cases hk : (lookupM a k).isSome
    · rw [if_pos hk]
      show firstOpt (lookupM a q) (lookupM b2 q) =
        firstOpt (lookupM a q) (if q = k then some s else lookupM b2 q)
      by_cases hq : q = k
      · subst hq
        obtain ⟨s0, hs0⟩ := Option.isSome_iff_exists.mp hk
        rw [hs0, if_pos rfl]
        rfl
      · rw [if_neg hq]
    · rw [if_neg hk]
      rw [lookupM_append a [(k, s)] q]
      show firstOpt (firstOpt (lookupM a q) (lookupM [(k, s)] q)) (lookupM b2 q) =
        firstOpt (lookupM a q) (if q = k then some s else lookupM b2 q)
      rw [firstOpt_assoc]
      congr 1
      show firstOpt (if q = k then some s else none) (lookupM b2 q) =
        (if q = k then some s else lookupM b2 q)
      by_cases hq : q = k
      · rw [if_pos hq, if_pos hq]
        rfl
      · rw [if_neg hq, if_neg hq]
        rfl

theorem keysOf_mergeMap (a b : SMap) (hb : keysNodup b) :
    keysOf (mergeMap a b) =
      keysOf a ++ (keysOf b).filter (fun k => !(decide (k ∈ keysOf a))) := by
  induction b generalizing a with
  | nil => simp [mergeMap, keysOf]
  | cons e b2 ih =>
    obtain ⟨k, s⟩ := e
    have hb2 : keysNodup b2 := by
      unfold keysNodup at hb ⊢
      simp only [keysOf, List.map_cons, List.nodup_cons] at hb
      exact hb.2
    have hknot : k ∉ keysOf b2 := by
      unfold keysNodup at hb
      simp only [keysOf, List.map_cons, List.nodup_cons] at hb
      simpa [keysOf] using hb.1
    have hfold : mergeMap a ((k, s) :: b2) = mergeMap (addFirst a (k, s)) b2 := rfl
    rw [hfold, ih (addFirst a (k, s)) hb2]
    show keysOf (if (lookupM a k).isSome then a else a ++ [(k, s)]) ++
        (keysOf b2).filter
          (fun q => !(decide (q ∈ keysOf (if (lookupM a k).isSome then a else a ++ [(k, s)])))) =
      keysOf a ++ (keysOf ((k, s) :: b2)).filter (fun q => !(decide (q ∈ keysOf a)))
    by_cases hm : k ∈ keysOf a
    · rw [if_pos (lookupM_isSome_of_mem a k hm)]
      have hkb : keysOf ((k, s) :: b2) = k :: keysOf b2 := rfl
      rw [hkb, List.filter_cons]
      simp [hm]
    · have hnone : ¬ (lookupM a k).isSome = true := by
        rw [lookupM_eq_none a k hm]
        intro hc
        exact Bool.noConfusion hc
      rw [if_neg hnone]
      have hka : keysOf (a ++ [(k, s)]) = keysOf a ++ [k] := by simp [keysOf]
      rw [hka]
      have hkb : keysOf ((k, s) :: b2) = k :: keysOf b2 := rfl
      rw [hkb, List.filter_cons]
      simp only [hm, decide_False, Bool.not_false, if_true]
      rw [List.append_assoc, List.singleton_append]
      congr 1
      congr 1
      apply List.filter_congr
      intro x hx
      have hxk : x ≠ k := fun he => hknot (he ▸ hx)
      simp [List.mem_append, hxk]

theorem keysNodup_mergeMap (a b : SMap) (ha : keysNodup a) (hb : keysNodup b) :
    keysNodup (mergeMap a b) := by
  unfold keysNodup at ha hb ⊢
  rw [keysOf_mergeMap a b hb]
  rw [List.nodup_append]
  refine ⟨ha, List.Nodup.filter _ hb, ?_⟩
  intro x hx hxf
  have := List.of_mem_filter hxf
  simp at this
  exact this hx

theorem smap_ext (a : SMap) (ha : keysNodup a) : ∀ (b : SMap),
    keysOf a = keysOf b → (∀ q, lookupM a q = lookupM b q) → a = b := by
  induction a with
  | nil =>
    intro b hkeys _
    cases b with
    | nil => rfl
    | cons e r => simp [keysOf] at hkeys
  | cons e r ih =>
    intro b hkeys hlook
    obtain ⟨k, s⟩ := e
    cases b with
    | nil => simp [keysOf] at hkeys
    | cons e2 r2 =>
      obtain ⟨k2, s2⟩ := e2
      simp only [keysOf, List.map_cons, List.cons.injEq] at hkeys
      obtain ⟨hk, hrk⟩ := hkeys
      subst hk
      have hs : s = s2 := by
        have := hlook k
        simpa [lookupM] using this
      subst hs
      unfold keysNodup at ha
      simp only [keysOf, List.map_cons, List.nodup_cons] at ha
      have hknotin : k ∉ keysOf r := by simpa [keysOf] using ha.1
      congr 1
      apply ih ha.2 r2 (by simpa [keysOf] using hrk)
      intro q
      by_cases hq : q = k
      · subst hq
        rw [lookupM_eq_none r q hknotin,
          lookupM_eq_none r2 q (by rw [show keysOf r2 = keysOf r from by simpa [keysOf] using hrk.symm]; exact hknotin)]
      · have := hlook q
        simpa [lookupM, hq] using this

theorem keysNodup_nil : keysNodup [] := by simp [keysNodup, keysOf]

/-! ## Scanner invariants -/

theorem keysNodup_single (e : Key × Stats) : keysNodup [e] := by
  simp [keysNodup, keysOf]

theorem processRem_nodup_aux : ∀ (n : Nat) (rem : List Char), rem.length ≤ n →
    ∀ (m : SMap), keysNodup m → ∀ m2, processRem rem m = Except.ok m2 → keysNodup m2 := by
  intro n
  induction n with
  | zero =>
    intro rem hlen m hm m2 he
    have hr : rem = [] := by
      cases rem with
      | nil => rfl
      | cons c r => simp at hlen
    subst hr
    rw [processRem_stop [] m (by simp)] at he
    cases he
    exact hm
  | succ k ihn =>
    intro rem hlen m hm m2 he
    rw [processRem_unfold] at he
    by_cases h : (readNameUntilSemicolon rem).length = rem.length
    · rw [if_pos h] at he
      cases he
      exact hm
    · rw [if_neg h] at he
      cases hp : parseTemp (valText rem) with
      | none =>
        rw [hp] at he
        exact Except.noConfusion he
      | some t =>
        rw [hp] at he
        have hlt := afterVal_lt rem h
        exact ihn (afterVal rem) (by omega) _ (keysNodup_insEntry m _ _ hm) m2 he

theorem processRem_nodup : ∀ (rem : List Char) (m : SMap), keysNodup m →
    ∀ m2, processRem rem m = Except.ok m2 → keysNodup m2 :=
  fun rem m hm m2 he => processRem_nodup_aux rem.length rem (Nat.le_refl _) m hm m2 he

/-! ## Well-formed data and chunk decomposition -/

theorem hasSemi_iff (l : List Char) : hasSemi l = true ↔ ';' ∈ l := by
  simp [hasSemi]

theorem dropWhile_head_false (p : Char → Bool) (d : List Char) (c : Char) (rest : List Char)
    (h : d.dropWhile p = c :: rest) : p c = false := by
  induction d with
  | nil => simp [List.dropWhile] at h
  | cons x xs ih =>
    rw [List.dropWhile_cons] at h
    split at h
    · exact ih h
    · rename_i hx
      cases h
      simpa using hx

theorem takeWhile_decomp (p : Char → Bool) (d : List Char)
    (h : (d.takeWhile p).length ≠ d.length) :
    ∃ c, d = d.takeWhile p ++ c :: d.drop ((d.takeWhile p).length + 1) ∧ p c = false := by
  have hjoin := List.takeWhile_append_dropWhile p d
  cases hdw : d.dropWhile p with
  | nil =>
    exfalso
    apply h
    conv_rhs => rw [← hjoin]
    rw [hdw]
    simp
  | cons c rest =>
    have hd : d = d.takeWhile p ++ c :: rest := by
      conv_lhs => rw [← hjoin]
      rw [hdw]
    have hrest : d.drop ((d.takeWhile p).length + 1) = rest := by
      rw [show d.drop ((d.takeWhile p).length + 1) =
          (d.takeWhile p ++ c :: rest).drop ((d.takeWhile p).length + 1) from by rw [← hd]]
      exact drop_after _ _ _
    refine ⟨c, ?_, dropWhile_head_false p d c rest hdw⟩
    rw [hrest]
    exact hd

theorem takeWhile_len_ne (p : Char → Bool) (l : List Char) (x : Char) (hx : x ∈ l)
    (hpx : p x = false) : (l.takeWhile p).length ≠ l.length := by
  intro he
  have heq : l.takeWhile p = l := List.IsPrefix.eq_of_length (List.takeWhile_prefix p) he
  have := List.mem_takeWhile_imp (heq ▸ hx)
  rw [hpx] at this
  cases this

theorem takeWhile_append_of_stop (p : Char → Bool) (c r : List Char) (x : Char) (hx : x ∈ c)
    (hpx : p x = false) : (c ++ r).takeWhile p = c.takeWhile p := by
  induction c with
  | nil => simp at hx
  | cons a as ih =>
    rw [List.cons_append, List.takeWhile_cons, List.takeWhile_cons]
    by_cases hpa : p a = true
    · rw [if_pos hpa, if_pos hpa]
      rcases List.mem_cons.mp hx with rfl | hm
      · rw [hpa] at hpx
        cases hpx
      · rw [ih hm]
    · rw [if_neg hpa, if_neg hpa]

theorem wfTerminated_nil : wfTerminated [] = true := by
  rw [wfTerminated.eq_def]
  simp

theorem wfTerminated_build (seg rest : List Char) (hs : hasSemi seg = true) (hn : '\n' ∉ seg)
    (hw : wfTerminated rest = true) : wfTerminated (seg ++ '\n' :: rest) = true := by
  have htw : (seg ++ '\n' :: rest).takeWhile notNL = seg :=
    takeWhile_append_stop seg '\n' rest
      (fun c hc => by
        simp only [notNL, bne_iff_ne, ne_eq]
        rintro rfl
        exact hn hc)
      (by simp [notNL])
  rw [wfTerminated.eq_def]
  rw [if_neg (by simp)]
  rw [dif_neg (by
    rw [htw]
    simp only [List.length_append, List.length_cons]
    omega)]
  rw [htw, drop_after]
  simp [hs, hw]

theorem wfTerminated_peel (c : List Char) (hw : wfTerminated c = true) (hne : c ≠ []) :
    ∃ seg rest, c = seg ++ '\n' :: rest ∧ hasSemi seg = true ∧ '\n' ∉ seg ∧
      wfTerminated rest = true ∧ rest.length < c.length := by
  rw [wfTerminated.eq_def, if_neg (by simpa using hne)] at hw
  by_cases hL : (c.takeWhile notNL).length = c.length
  · rw [dif_pos hL] at hw
    exact absurd hw (by simp)
  · rw [dif_neg hL] at hw
    simp only [Bool.and_eq_true] at hw
    obtain ⟨ch, hdc, hpc⟩ := takeWhile_decomp notNL c hL
    have hch : ch = '\n' := by simpa [notNL] using hpc
    subst hch
    refine ⟨c.takeWhile notNL, c.drop ((c.takeWhile notNL).length + 1), hdc, hw.1, ?_, hw.2, ?_⟩
    · intro hmem
      have := List.mem_takeWhile_imp hmem
      simp [notNL] at this
    · simp only [List.length_drop]
      have h1 := takeWhile_len_le notNL c
      have hpos : 0 < c.length := List.length_pos.mpr hne
      omega

theorem wfData_nil : wfData [] = true := by
  rw [wfData.eq_def]
  simp


theorem wfData_build (seg rest : List Char) (hs : hasSemi seg = true) (hn : '\n' ∉ seg)
    (hw : wfData rest = true) : wfData (seg ++ '\n' :: rest) = true := by
  have htw : (seg ++ '\n' :: rest).takeWhile notNL = seg :=
    takeWhile_append_stop seg '\n' rest
      (fun c hc => by
        simp only [notNL, bne_iff_ne, ne_eq]
        rintro rfl
        exact hn hc)
      (by simp [notNL])
  rw [wfData.eq_def]
  rw [if_neg (by simp)]
  rw [dif_neg (by
    rw [htw]
    simp only [List.length_append, List.length_cons]
    omega)]
  rw [htw, drop_after]
  simp [hs, hw]

theorem wfData_split_aux : ∀ (n : Nat) (c : List Char), c.length ≤ n → ∀ (r : List Char),
    wfData (c ++ r) = true → (c = [] ∨ c.getLast? = some '\n') →
    wfTerminated c = true ∧ wfData r = true := by
  intro n
  induction n with
  | zero =>
    intro c hlen r hw hc
    have hce : c = [] := by
      cases c with
      | nil => rfl
      | cons x xs => simp at hlen
    subst hce
    exact ⟨wfTerminated_nil, by simpa using hw⟩
  | succ k ihn =>
    intro c hlen r hw hc
    rcases hc with rfl | hlast
    · exact ⟨wfTerminated_nil, by simpa using hw⟩
    · have hcne : c ≠ [] := by
        intro he
        rw [he] at hlast
        cases hlast
      have hnlc : '\n' ∈ c := List.mem_of_mem_getLast? hlast
      have hLne : (c.takeWhile notNL).length ≠ c.length :=
        takeWhile_len_ne notNL c '\n' hnlc (by simp [notNL])
      obtain ⟨ch, hdc, hpc⟩ := takeWhile_decomp notNL c hLne
      have hch : ch = '\n' := by simpa [notNL] using hpc
      subst hch
      set seg := c.takeWhile notNL with hseg
      set c2 := c.drop (seg.length + 1) with hc2
      have hclen : c.length = seg.length + (c2.length + 1) := by
        conv_lhs => rw [hdc]
        simp [List.length_append]
      have htwa : (c ++ r).takeWhile notNL = seg :=
        takeWhile_append_of_stop notNL c r '\n' hnlc (by simp [notNL])
      have hca : c ++ r = seg ++ '\n' :: (c2 ++ r) := by
        conv_lhs => rw [hdc]
        simp
      rw [wfData.eq_def, if_neg (by simp [List.isEmpty_iff, List.append_eq_nil, hcne])] at hw
      have hLa : ((c ++ r).takeWhile notNL).length ≠ (c ++ r).length := by
        rw [htwa]
        simp only [List.length_append]
        omega
      rw [dif_neg hLa] at hw
      rw [htwa] at hw
      have hdropa : (c ++ r).drop (seg.length + 1) = c2 ++ r := by
        rw [hca]
        exact drop_after _ _ _
      rw [hdropa] at hw
      simp only [Bool.and_eq_true] at hw
      obtain ⟨hsemi, hwrest⟩ := hw
      have hnoseg : '\n' ∉ seg := by
        intro hm
        rw [hseg] at hm
        have := List.mem_takeWhile_imp hm
        simp [notNL] at this
      have hc2last : c2 = [] ∨ c2.getLast? = some '\n' := by
        by_cases hc2e : c2 = []
        · exact Or.inl hc2e
        · right
          obtain ⟨z, hz⟩ : ∃ z, c2.getLast? = some z := by
            have := List.getLast?_isSome.mpr hc2e
            cases hzz : c2.getLast? with
            | none => rw [hzz] at this; cases this
            | some z => exact ⟨z, rfl⟩
          have h1 : c.getLast? = some z := by
            conv_lhs => rw [hdc]
            rw [List.getLast?_append]
            rw [show ('\n' :: c2).getLast? = some z from by
              rw [show ('\n' :: c2) = ['\n'] ++ c2 from rfl, List.getLast?_append, hz]
              rfl]
            rfl
          have hzn : z = '\n' := by
            rw [h1] at hlast
            exact Option.some.inj hlast
          rw [← hzn]
          exact hz
      have hlen2 : c2.length ≤ k := by omega
      obtain ⟨hterm2, hwr⟩ := ihn c2 hlen2 r hwrest hc2last
      refine ⟨?_, hwr⟩
      rw [hdc]
      exact wfTerminated_build seg c2 hsemi hnoseg hterm2

theorem wfData_split (c r : List Char) (hw : wfData (c ++ r) = true)
    (hc : c = [] ∨ c.getLast? = some '\n') :
    wfTerminated c = true ∧ wfData r = true :=
  wfData_split_aux c.length c (Nat.le_refl _) r hw hc

theorem processRem_split_aux : ∀ (n : Nat) (c : List Char), c.length ≤ n →
    wfTerminated c = true → ∀ (k : List Char) (m : SMap),
    processRem (c ++ k) m = (processRem c m).bind (fun m2 => processRem k m2) := by
  intro n
  induction n with
  | zero =>
    intro c hlen hterm k m
    have hce : c = [] := by
      cases c with
      | nil => rfl
      | cons x xs => simp at hlen
    subst hce
    rw [processRem_stop [] m (by simp)]
    rfl
  | succ kk ihn =>
    intro c hlen hterm k m
    by_cases hce : c = []
    · subst hce
      rw [processRem_stop [] m (by simp)]
      rfl
    · obtain ⟨seg, rest, hdc, hsemi, hnoseg, hterm2, hrlen⟩ := wfTerminated_peel c hterm hce
      have hsemimem : ';' ∈ seg := (hasSemi_iff seg).mp hsemi
      have hLne : (seg.takeWhile notSemi).length ≠ seg.length :=
        takeWhile_len_ne notSemi seg ';' hsemimem (by simp [notSemi])
      obtain ⟨ch, hds, hpc⟩ := takeWhile_decomp notSemi seg hLne
      have hch : ch = ';' := by simpa [notSemi] using hpc
      subst hch
      set key := seg.takeWhile notSemi with hkey
      set v := seg.drop (key.length + 1) with hv
      have hknos : ';' ∉ key := by
        intro hm
        rw [hkey] at hm
        have := List.mem_takeWhile_imp hm
        simp [notSemi] at this
      have hvnonl : '\n' ∉ v := by
        intro hm
        apply hnoseg
        rw [hds]
        simp [hm]
      have hshape1 : c ++ k = key ++ ';' :: (v ++ '\n' :: (rest ++ k)) := by
        rw [hdc, hds]
        simp
      have hshape2 : c = key ++ ';' :: (v ++ '\n' :: rest) := by
        rw [hdc, hds]
        simp
      rw [hshape1, hshape2, processRem_step key v (rest ++ k) m hknos hvnonl,
        processRem_step key v rest m hknos hvnonl]
      cases parseTemp v with
      | none => rfl
      | some t =>
        show processRem (rest ++ k) _ = (processRem rest _).bind _
        exact ihn rest (by omega) hterm2 k _

theorem processRem_split (c : List Char) (hterm : wfTerminated c = true) (k : List Char)
    (m : SMap) :
    processRem (c ++ k) m = (processRem c m).bind (fun m2 => processRem k m2) :=
  processRem_split_aux c.length c (Nat.le_refl _) hterm k m

/-! ## Folding worker results -/

theorem foldl_mergeE_error (e : String) (rs : List (Except String SMap)) :
    rs.foldl mergeE (.error e) = .error e := by
  induction rs with
  | nil => rfl
  | cons r rest ih =>
    show List.foldl mergeE (mergeE (.error e) r) rest = _
    rw [show mergeE (.error e) r = .error e from rfl]
    exact ih

theorem foldl_mergeE_empties (rs : List (List Char)) (h : ∀ c ∈ rs, c = [])
    (x : Except String SMap) :
    (rs.map (fun c => processRem c [])).foldl mergeE x = x := by
  induction rs generalizing x with
  | nil => rfl
  | cons c rest ih =>
    have hc : c = [] := h c (by simp)
    subst hc
    show List.foldl mergeE (mergeE x (processRem [] [])) (rest.map _) = x
    rw [processRem_stop [] [] (by simp)]
    have hx : mergeE x (.ok []) = x := by
      cases x with
      | error e => rfl
      | ok a => rfl
    rw [hx]
    exact ih (fun c2 hc2 => h c2 (by simp [hc2])) x

/-! ## Chunk planner facts -/

theorem getD_drop (data : List Char) (k i : Nat) :
    (data.drop k).getD i ' ' = data.getD (k + i) ' ' := by
  simp [List.getD, List.getElem?_drop]

theorem calcLoop_length (data : List Char) (S csize : Nat) : ∀ (n pos : Nat),
    (calcLoop data S csize n pos).length = n := by
  intro n
  induction n with
  | zero => intro pos; rfl
  | succ k ih =>
    intro pos
    show (_ :: calcLoop data S csize k _).length = k + 1
    rw [List.length_cons, ih]

theorem chain_le : ∀ (cs : List (Nat × Nat)) (p q : Nat), ChainP p cs q → p ≤ q := by
  intro cs
  induction cs with
  | nil =>
    intro p q hch
    cases hch
    exact Nat.le_refl _
  | cons c rest ih =>
    intro p q hch
    cases hch with
    | cons _ e _ _ hpe hrest => exact Nat.le_trans hpe (ih e q hrest)

theorem calcLoop_facts (data : List Char) (S csize : Nat) (hS : data.length = S) :
    ∀ (n pos : Nat), pos ≤ S →
    ∃ q, ChainP pos (calcLoop data S csize n pos) q ∧ q ≤ S ∧
      (∀ se ∈ calcLoop data S csize n pos,
        se.2 = S ∨ (1 ≤ se.2 ∧ data.getD (se.2 - 1) ' ' = '\n')) := by
  intro n
  induction n with
  | zero =>
    intro pos hpos
    exact ⟨pos, ChainP.nil pos, hpos, by intro se hse; cases hse⟩
  | succ k ih =>
    intro pos hpos
    by_cases hle : S ≤ pos + csize
    · have hstep : calcLoop data S csize (k + 1) pos =
          (pos, S) :: calcLoop data S csize k S := by
        show (pos, if S ≤ pos + csize then S else _) :: calcLoop data S csize k _ = _
        rw [if_pos hle]
      obtain ⟨q, hch, hq, hends⟩ := ih S (Nat.le_refl _)
      refine ⟨q, ?_, hq, ?_⟩
      · rw [hstep]
        exact ChainP.cons pos S q _ hpos hch
      · intro se hse
        rw [hstep] at hse
        rcases List.mem_cons.mp hse with rfl | hm
        · exact Or.inl rfl
        · exact hends se hm
    · cases hscan : scanFor '\n' (data.drop (pos + csize)) with
      | none =>
        have hstep : calcLoop data S csize (k + 1) pos =
            (pos, S) :: calcLoop data S csize k S := by
          show (pos, if S ≤ pos + csize then S else _) :: calcLoop data S csize k _ = _
          rw [if_neg hle, hscan]
        obtain ⟨q, hch, hq, hends⟩ := ih S (Nat.le_refl _)
        refine ⟨q, ?_, hq, ?_⟩
        · rw [hstep]
          exact ChainP.cons pos S q _ hpos hch
        · intro se hse
          rw [hstep] at hse
          rcases List.mem_cons.mp hse with rfl | hm
          · exact Or.inl rfl
          · exact hends se hm
      | some idx =>
        obtain ⟨hidx, hnl⟩ := scanFor_some '\n' (data.drop (pos + csize)) idx hscan
        rw [List.length_drop] at hidx
        have hE : pos + csize + idx + 1 ≤ S := by omega
        have hstep : calcLoop data S csize (k + 1) pos =
            (pos, pos + csize + idx + 1) ::
              calcLoop data S csize k (pos + csize + idx + 1) := by
          show (pos, if S ≤ pos + csize then S else _) :: calcLoop data S csize k _ = _
          rw [if_neg hle, hscan]
        obtain ⟨q, hch, hq, hends⟩ := ih (pos + csize + idx + 1) hE
        refine ⟨q, ?_, hq, ?_⟩
        · rw [hstep]
          exact ChainP.cons pos (pos + csize + idx + 1) q _ (by omega) hch
        · intro se hse
          rw [hstep] at hse
          rcases List.mem_cons.mp hse with rfl | hm
          · right
            refine ⟨by omega, ?_⟩
            show data.getD (pos + csize + idx + 1 - 1) ' ' = '\n'
            rw [getD_drop] at hnl
            rw [show pos + csize + idx + 1 - 1 = pos + csize + idx from by omega]
            exact hnl
          · exact hends se hm

theorem setLastEnd_length : ∀ (cs : List (Nat × Nat)) (S : Nat),
    (setLastEnd cs S).length = cs.length := by
  intro cs
  induction cs with
  | nil => intro S; rfl
  | cons c rest ih =>
    intro S
    cases rest with
    | nil =>
      obtain ⟨s, e⟩ := c
      rfl
    | cons c2 r2 =>
      show (c :: setLastEnd (c2 :: r2) S).length = _
      rw [List.length_cons, ih S]
      rfl

theorem setLastEnd_chain : ∀ (cs : List (Nat × Nat)) (p q S : Nat), ChainP p cs q → q ≤ S →
    cs ≠ [] → ChainP p (setLastEnd cs S) S := by
  intro cs
  induction cs with
  | nil =>
    intro p q S hch hq hne
    exact absurd rfl hne
  | cons c rest ih =>
    intro p q S hch hq hne
    cases hch with
    | cons _ e _ _ hpe hrest =>
      cases rest with
      | nil =>
        cases hrest
        show ChainP p [(p, S)] S
        exact ChainP.cons p S S [] (Nat.le_trans hpe hq) (ChainP.nil S)
      | cons c2 r2 =>
        show ChainP p ((p, e) :: setLastEnd (c2 :: r2) S) S
        exact ChainP.cons p e S _ hpe (ih e q S hrest hq (by simp))

theorem setLastEnd_mem : ∀ (cs : List (Nat × Nat)) (S : Nat) (x : Nat × Nat),
    x ∈ setLastEnd cs S → x ∈ cs ∨ x.2 = S := by
  intro cs
  induction cs with
  | nil =>
    intro S x hx
    cases hx
  | cons c rest ih =>
    intro S x hx
    cases rest with
    | nil =>
      obtain ⟨s, e⟩ := c
      rcases List.mem_cons.mp hx with rfl | hm
      · exact Or.inr rfl
      · cases hm
    | cons c2 r2 =>
      rcases List.mem_cons.mp hx with rfl | hm
      · exact Or.inl (by simp)
      · rcases ih S x hm with h1 | h2
        · exact Or.inl (List.mem_cons.mpr (Or.inr h1))
        · exact Or.inr h2

theorem chain_flatten (data : List Char) : ∀ (cs : List (Nat × Nat)) (p q : Nat),
    ChainP p cs q → q ≤ data.length →
    (cs.map (chunkSlice data)).flatten = (data.drop p).take (q - p) := by
  intro cs
  induction cs with
  | nil =>
    intro p q hch hq
    cases hch
    simp
  | cons c rest ih =>
    intro p q hch hq
    cases hch with
    | cons _ e _ _ hpe hrest =>
      have heq : e ≤ q := chain_le rest e q hrest
      show chunkSlice data (p, e) ++ (rest.map (chunkSlice data)).flatten = _
      rw [ih e q hrest hq]
      show (data.drop p).take (e - p) ++ (data.drop e).take (q - e) = (data.drop p).take (q - p)
      have he : data.drop e = (data.drop p).drop (e - p) := by
        rw [List.drop_drop, show p + (e - p) = e from by omega]
      rw [he, show q - p = (e - p) + (q - e) from by omega, List.take_add]

theorem chain_all_empty (data : List Char) : ∀ (cs : List (Nat × Nat)) (q : Nat),
    ChainP q cs q → allEmptyB (cs.map (chunkSlice data)) = true := by
  intro cs
  induction cs with
  | nil => intro q hch; rfl
  | cons c rest ih =>
    intro q hch
    cases hch with
    | cons _ e _ _ hpe hrest =>
      have he : e = q := Nat.le_antisymm (chain_le rest e q hrest) hpe
      have h0 : chunkSlice data (q, e) = [] := by
        simp only [chunkSlice]
        rw [show e - q = 0 from by omega]
        simp
      show ((chunkSlice data (q, e)).isEmpty && allEmptyB (rest.map (chunkSlice data))) = true
      rw [h0]
      rw [he] at hrest
      rw [ih q hrest]
      rfl

theorem getD_to_getElem? (l : List Char) (i : Nat) (hi : i < l.length) (c : Char)
    (h : l.getD i ' ' = c) : l[i]? = some c := by
  have hg : l.getD i ' ' = (l[i]?).getD ' ' := by
    rw [List.getD, List.get?_eq_getElem?]
  rw [hg] at h
  cases hx : l[i]? with
  | none =>
    rw [List.getElem?_eq_none_iff] at hx
    omega
  | some x =>
    rw [hx] at h
    simp at h
    rw [h]

theorem chain_contents_wf (data : List Char) (S : Nat) (hS : data.length = S) :
    ∀ (cs : List (Nat × Nat)) (p : Nat), ChainP p cs S →
    (∀ se ∈ cs, se.2 = S ∨ (1 ≤ se.2 ∧ data.getD (se.2 - 1) ' ' = '\n')) →
    chunksWF (cs.map (chunkSlice data)) = true := by
  intro cs
  induction cs with
  | nil => intro p hch hends; rfl
  | cons c rest ih =>
    intro p hch hends
    cases hch with
    | cons _ e _ _ hpe hrest =>
      show chunksWF (chunkSlice data (p, e) :: rest.map (chunkSlice data)) = true
      simp only [chunksWF, Bool.or_eq_true, Bool.and_eq_true]
      rcases hends (p, e) (by simp) with hS2 | ⟨h1, hnl⟩
      · right
        have heS : e = S := hS2
        subst heS
        exact chain_all_empty data rest e hrest
      · left
        have heS : e ≤ S := chain_le rest e S hrest
        refine ⟨?_, ih e hrest (fun se hse => hends se (by simp [hse]))⟩
        by_cases hpe2 : e = p
        · right
          subst hpe2
          simp [chunkSlice]
        · left
          rw [decide_eq_true_iff]
          have hlen : (chunkSlice data (p, e)).length = e - p := by
            simp only [chunkSlice, List.length_take, List.length_drop]
            omega
          rw [List.getLast?_eq_getElem?, hlen]
          show (chunkSlice data (p, e))[e - p - 1]? = some '\n'
          have h2 : (chunkSlice data (p, e))[e - p - 1]? = (data.drop p)[e - p - 1]? := by
            simp only [chunkSlice, List.getElem?_take]
            rw [if_pos (by omega)]
          rw [h2, List.getElem?_drop]
          rw [show p + (e - p - 1) = e - 1 from by omega]
          exact getD_to_getElem? data (e - 1) (by omega) '\n' hnl

theorem calculateChunks_facts (data : List Char) (wk : Nat) (hW : 1 ≤ wk) :
    ChainP 0 (calculateChunks data data.length wk) data.length ∧
      (∀ se ∈ calculateChunks data data.length wk,
        se.2 = data.length ∨ (1 ≤ se.2 ∧ data.getD (se.2 - 1) ' ' = '\n')) ∧
      (calculateChunks data data.length wk).length = wk := by
  obtain ⟨q, hch, hq, hends⟩ :=
    calcLoop_facts data data.length (data.length / wk) rfl wk 0 (Nat.zero_le _)
  refine ⟨?_, ?_, ?_⟩
  · apply setLastEnd_chain _ 0 q data.length hch hq
    intro he
    have hlen := calcLoop_length data data.length (data.length / wk) wk 0
    rw [he] at hlen
    simp at hlen
    omega
  · intro se hse
    rcases setLastEnd_mem _ _ se hse with hin | h2
    · exact hends se hin
    · exact Or.inl h2
  · show (setLastEnd _ _).length = wk
    rw [setLastEnd_length, calcLoop_length]

/-! ## The merge without write-back, observed through the pipeline (C1, C5) -/

theorem wfData_two_lines : wfData "a;1.00\nb;2.50\n".data = true := by
  have h : "a;1.00\nb;2.50\n".data =
      "a;1.00".data ++ '\n' :: ("b;2.50".data ++ '\n' :: []) := by decide
  rw [h]
  exact wfData_build _ _ (by decide) (by decide)
    (wfData_build _ [] (by decide) (by decide) wfData_nil)

theorem wfData_scenario :
    wfData "stationA;10.00\nstationB;20.00\nstationA;30.00\nstationC;-1.00\n".data = true := by
  have h : "stationA;10.00\nstationB;20.00\nstationA;30.00\nstationC;-1.00\n".data =
      "stationA;10.00".data ++ '\n' :: ("stationB;20.00".data ++ '\n' ::
        ("stationA;30.00".data ++ '\n' :: ("stationC;-1.00".data ++ '\n' :: []))) := by decide
  rw [h]
  exact wfData_build _ _ (by decide) (by decide)
    (wfData_build _ _ (by decide) (by decide)
      (wfData_build _ _ (by decide) (by decide)
        (wfData_build _ [] (by decide) (by decide) wfData_nil)))

/-- C1 (code bug): the spec demands worker-count invariance of the
FinalMapping, but the merge loop of `MustRun` (lines 124-131) reads
`existing` by value out of the `map[string]StationStats` and never writes
the combined struct back, so a key met by several workers keeps only the
lowest-index worker’s statistics.  On the well-formed input
`"a;1.00\nx;2.00\na;3.00\n"`, one worker yields `a=1.00/2.00/3.00` while
two workers split the two `a` lines across chunks and yield
`a=1.00/1.00/1.00`: the FinalMappings and the rendered outputs differ. -/
theorem c1_merge_discards_cross_worker_stats :
    finalMapping "a;1.00\nx;2.00\na;3.00\n".data 1 ≠
      finalMapping "a;1.00\nx;2.00\na;3.00\n".data 2 ∧
    runOutput "a;1.00\nx;2.00\na;3.00\n".data 1 =
      .ok "\x7ba=1.00/2.00/3.00, x=2.00/2.00/2.00\x7d\n" ∧
    runOutput "a;1.00\nx;2.00\na;3.00\n".data 2 =
      .ok "\x7ba=1.00/1.00/1.00, x=2.00/2.00/2.00\x7d\n" := by
  decide

/-- C5 (code bug): at worker count 1 the four-line scenario renders exactly
the spec’s expected line, but at worker count 3 the planner puts
`stationA`’s two lines into different chunks and the no-write-back merge
keeps only the first worker’s statistics, so the program renders
`stationA=10.00/10.00/10.00` instead of `stationA=10.00/20.00/30.00`: the
claimed output for every worker count at least 1 does not hold. -/
theorem c5_scenario_output_not_worker_invariant :
    runOutput "stationA;10.00\nstationB;20.00\nstationA;30.00\nstationC;-1.00\n".data 1 =
      .ok "\x7bstationA=10.00/20.00/30.00, stationB=20.00/20.00/20.00, stationC=-1.00/-1.00/-1.00\x7d\n" ∧
    runOutput "stationA;10.00\nstationB;20.00\nstationA;30.00\nstationC;-1.00\n".data 3 =
      .ok "\x7bstationA=10.00/10.00/10.00, stationB=20.00/20.00/20.00, stationC=-1.00/-1.00/-1.00\x7d\n" := by
  decide

/-! ## The partition invariant (C3) -/

theorem chain_first (cs : List (Nat × Nat)) (p q s e : Nat) (rest : List (Nat × Nat))
    (hch : ChainP p cs q) (heq : cs = (s, e) :: rest) : s = p := by
  subst heq
  cases hch
  rfl

theorem chain_get0 (cs : List (Nat × Nat)) (p q s e : Nat) (hch : ChainP p cs q)
    (h0 : cs[0]? = some (s, e)) : s = p := by
  cases cs with
  | nil => cases h0
  | cons c rest =>
    cases hch with
    | cons _ e2 _ _ hpe hrest =>
      simp at h0
      exact h0.1.symm

theorem chain_get (cs : List (Nat × Nat)) : ∀ (p q : Nat), ChainP p cs q →
    ∀ (i s e s2 e2 : Nat), cs[i]? = some (s, e) → cs[i + 1]? = some (s2, e2) → e = s2 := by
  induction cs with
  | nil =>
    intro p q hch i s e s2 e2 h1 h2
    cases h1
  | cons c rest ih =>
    intro p q hch i s e s2 e2 h1 h2
    cases hch with
    | cons _ e0 _ _ hpe hrest =>
      cases i with
      | zero =>
        simp at h1
        have he : e = e0 := h1.2.symm
        rw [List.getElem?_cons_succ] at h2
        have := chain_get0 rest e0 q s2 e2 hrest h2
        omega
      | succ j =>
        rw [List.getElem?_cons_succ] at h1 h2
        exact ih e0 q hrest j s e s2 e2 h1 h2

theorem chain_last (cs : List (Nat × Nat)) : ∀ (p q : Nat), ChainP p cs q → cs ≠ [] →
    cs.getLast?.map Prod.snd = some q := by
  induction cs with
  | nil =>
    intro p q hch hne
    exact absurd rfl hne
  | cons c rest ih =>
    intro p q hch hne
    cases hch with
    | cons _ e0 _ _ hpe hrest =>
      cases rest with
      | nil =>
        cases hrest
        rfl
      | cons c2 r2 =>
        rw [List.getLast?_cons_cons]
        exact ih e0 q hrest (by simp)

theorem chain_mem_bounds (cs : List (Nat × Nat)) : ∀ (p q : Nat), ChainP p cs q →
    ∀ se ∈ cs, se.1 ≤ se.2 ∧ se.2 ≤ q := by
  induction cs with
  | nil =>
    intro p q hch se hse
    cases hse
  | cons c rest ih =>
    intro p q hch se hse
    cases hch with
    | cons _ e0 _ _ hpe hrest =>
      rcases List.mem_cons.mp hse with rfl | hm
      · exact ⟨hpe, chain_le rest e0 q hrest⟩
      · exact ih e0 q hrest se hm

/-- C3: for every file content and worker count at least 1, `calculateChunks`
returns exactly that many half-open ranges; they are contiguous and ordered
(each chunk starts where the previous ends), begin at 0 and end at the file
size; every internal boundary `b` other than 0 and the file size sits just
after a line terminator (`data[b-1] = '\n'`); and the last chunk's end is the
file size unconditionally. -/
theorem c3_chunks_partition_invariant (data : List Char) (wk : Nat) (hW : 1 ≤ wk) :
    (calculateChunks data data.length wk).length = wk ∧
      (calculateChunks data data.length wk).head?.map Prod.fst = some 0 ∧
      (calculateChunks data data.length wk).getLast?.map Prod.snd = some data.length ∧
      (∀ se ∈ calculateChunks data data.length wk, se.1 ≤ se.2 ∧ se.2 ≤ data.length) ∧
      (∀ i s e s2 e2, (calculateChunks data data.length wk)[i]? = some (s, e) →
        (calculateChunks data data.length wk)[i + 1]? = some (s2, e2) →
        e = s2 ∧ (e ≠ 0 → e ≠ data.length → data[e - 1]? = some '\n')) := by
  obtain ⟨hch, hends, hlen⟩ := calculateChunks_facts data wk hW
  have hne : calculateChunks data data.length wk ≠ [] := by
    intro he
    rw [he] at hlen
    simp at hlen
    omega
  refine ⟨hlen, ?_, chain_last _ 0 data.length hch hne, chain_mem_bounds _ 0 data.length hch, ?_⟩
  · cases hcs : calculateChunks data data.length wk with
    | nil => exact absurd hcs hne
    | cons c rest =>
      obtain ⟨s, e⟩ := c
      have hs := chain_first _ 0 data.length s e rest hch hcs
      simp [hs]
  · intro i s e s2 e2 h1 h2
    refine ⟨chain_get _ 0 data.length hch i s e s2 e2 h1 h2, ?_⟩
    intro he0 heS
    have hmem : (s, e) ∈ calculateChunks data data.length wk := List.getElem?_mem h1
    rcases hends (s, e) hmem with hS | ⟨h1e, hnl⟩
    · exact absurd hS heS
    · have hb := chain_mem_bounds _ 0 data.length hch (s, e) hmem
      have hb2 : e ≤ data.length := hb.2
      exact getD_to_getElem? data (e - 1) (by omega) '\n' hnl

theorem c3_witness :
    (calculateChunks "a;1.00\nb;2.00\n".data "a;1.00\nb;2.00\n".data.length 3).length = 3 ∧
      (calculateChunks "a;1.00\nb;2.00\n".data
        "a;1.00\nb;2.00\n".data.length 3).head?.map Prod.fst = some 0 ∧
      (calculateChunks "a;1.00\nb;2.00\n".data
        "a;1.00\nb;2.00\n".data.length 3).getLast?.map Prod.snd =
        some "a;1.00\nb;2.00\n".data.length ∧
      (∀ se ∈ calculateChunks "a;1.00\nb;2.00\n".data "a;1.00\nb;2.00\n".data.length 3,
        se.1 ≤ se.2 ∧ se.2 ≤ "a;1.00\nb;2.00\n".data.length) ∧
      (∀ i s e s2 e2,
        (calculateChunks "a;1.00\nb;2.00\n".data "a;1.00\nb;2.00\n".data.length 3)[i]? =
          some (s, e) →
        (calculateChunks "a;1.00\nb;2.00\n".data
          "a;1.00\nb;2.00\n".data.length 3)[i + 1]? = some (s2, e2) →
        e = s2 ∧ (e ≠ 0 → e ≠ "a;1.00\nb;2.00\n".data.length →
          "a;1.00\nb;2.00\n".data[e - 1]? = some '\n')) :=
  c3_chunks_partition_invariant "a;1.00\nb;2.00\n".data 3 (by decide)

/-! ## Error propagation (C4) -/

theorem processRem_error_shape_aux : ∀ (n : Nat) (rem : List Char), rem.length ≤ n →
    ∀ (m : SMap) (e : String), processRem rem m = .error e →
    ∃ t, e = "malformed number: " ++ quoteStr t ∧ parseTemp t = none := by
  intro n
  induction n with
  | zero =>
    intro rem hlen m e he
    have hr : rem = [] := by
      cases rem with
      | nil => rfl
      | cons c r => simp at hlen
    subst hr
    rw [processRem_stop [] m (by simp)] at he
    exact Except.noConfusion he
  | succ k ihn =>
    intro rem hlen m e he
    rw [processRem_unfold] at he
    by_cases h : (readNameUntilSemicolon rem).length = rem.length
    · rw [if_pos h] at he
      exact Except.noConfusion he
    · rw [if_neg h] at he
      cases hp : parseTemp (valText rem) with
      | none =>
        rw [hp] at he
        refine ⟨valText rem, ?_, hp⟩
        have h2 : (Except.error ("malformed number: " ++ quoteStr (valText rem)) :
            Except String SMap) = Except.error e := he
        exact (Except.error.inj h2).symm
      | some t =>
        rw [hp] at he
        have hlt := afterVal_lt rem h
        exact ihn (afterVal rem) (by omega) _ e he

theorem processRem_error_shape (rem : List Char) (m : SMap) (e : String)
    (he : processRem rem m = .error e) :
    ∃ t, e = "malformed number: " ++ quoteStr t ∧ parseTemp t = none :=
  processRem_error_shape_aux rem.length rem (Nat.le_refl _) m e he

theorem foldl_mergeE_error_src : ∀ (rs : List (Except String SMap))
    (acc : Except String SMap) (e : String),
    rs.foldl mergeE acc = .error e → acc = .error e ∨ Except.error e ∈ rs := by
  intro rs
  induction rs with
  | nil =>
    intro acc e h
    exact Or.inl h
  | cons r rest ih =>
    intro acc e h
    rcases ih (mergeE acc r) e h with h2 | h2
    · cases acc with
      | error e2 =>
        left
        have h3 : (Except.error e2 : Except String SMap) = Except.error e := h2
        rw [Except.error.inj h3]
      | ok a =>
        cases r with
        | error e2 =>
          right
          have h3 : (Except.error e2 : Except String SMap) = Except.error e := h2
          rw [← Except.error.inj h3]
          simp
        | ok m => exact absurd h2 (by simp [mergeE])
    · right
      simp [h2]

theorem foldl_mergeE_isError : ∀ (rs : List (Except String SMap)) (acc : Except String SMap),
    ((∃ e0, Except.error e0 ∈ rs) ∨ (∃ e0, acc = .error e0)) →
    ∃ e, rs.foldl mergeE acc = .error e := by
  intro rs
  induction rs with
  | nil =>
    intro acc h
    rcases h with ⟨e0, hm⟩ | ⟨e0, he⟩
    · cases hm
    · exact ⟨e0, he⟩
  | cons r rest ih =>
    intro acc h
    apply ih (mergeE acc r)
    rcases h with ⟨e0, hm⟩ | ⟨e0, he⟩
    · rcases List.mem_cons.mp hm with rfl | hm2
      · right
        cases acc with
        | error e2 => exact ⟨e2, rfl⟩
        | ok a => exact ⟨e0, rfl⟩
      · left
        exact ⟨e0, hm2⟩
    · right
      subst he
      exact ⟨e0, rfl⟩

/-- C4 (amended): if some line's value text fails the parser (it has no
prefix of the fixed-decimal form), the entire run fails: a failing chunk's
error is "malformed number" quoting the raw offending text; and whenever a
failing chunk belongs to the planned chunk list, the final mapping and the
run output are such a malformed-number error — no output is produced even if
other chunks succeeded. -/
theorem c4_malformed_value_aborts_run (data : List Char) (c : Nat × Nat) (e : String)
    (hc : processChunk data c = .error e) :
    (∃ t, e = "malformed number: " ++ quoteStr t ∧ parseTemp t = none) ∧
      (∀ wk, 1 ≤ wk → c ∈ calculateChunks data data.length wk →
        ∃ e2 t2, finalMapping data wk = .error e2 ∧ runOutput data wk = .error e2 ∧
          e2 = "malformed number: " ++ quoteStr t2 ∧ parseTemp t2 = none) := by
  constructor
  · exact processRem_error_shape (chunkSlice data c) [] e hc
  · intro wk hw hmem
    have hmem2 : Except.error e ∈ localResults data wk := by
      show Except.error e ∈ (calculateChunks data data.length wk).map (processChunk data)
      exact List.mem_map.mpr ⟨c, hmem, hc⟩
    obtain ⟨e2, he2⟩ := foldl_mergeE_isError (localResults data wk) (.ok [])
      (Or.inl ⟨e, hmem2⟩)
    have hfm : finalMapping data wk = .error e2 := he2
    have hsrc := foldl_mergeE_error_src (localResults data wk) (.ok []) e2 he2
    rcases hsrc with habs | hmem3
    · exact Except.noConfusion habs
    · obtain ⟨c2, hc2mem, hc2⟩ := List.mem_map.mp hmem3
      obtain ⟨t2, ht2, hpt2⟩ := processRem_error_shape (chunkSlice data c2) [] e2 hc2
      exact ⟨e2, t2, hfm, by show (finalMapping data wk).map renderMap = _; rw [hfm]; rfl,
        ht2, hpt2⟩

/-- C4 counterexample: the value field `"0.001"` fails the fixed-decimal
grammar, yet the run does not fail — it succeeds and renders output, because
the parser ignores trailing bytes after the two fraction digits. -/
theorem c4_counterexample :
    grammarB true "0.001".data = false ∧
      runOutput "a;0.001\n".data 1 = .ok "\x7ba=0.00/0.00/0.00\x7d\n" := by
  decide

theorem c4_witness :
    ((∃ t, "malformed number: \"NaN\"" = "malformed number: " ++ quoteStr t ∧
        parseTemp t = none) ∧
      (∀ wk, 1 ≤ wk →
        (0, 13) ∈ calculateChunks "stationA;NaN\n".data "stationA;NaN\n".data.length wk →
        ∃ e2 t2, finalMapping "stationA;NaN\n".data wk = .error e2 ∧
          runOutput "stationA;NaN\n".data wk = .error e2 ∧
          e2 = "malformed number: " ++ quoteStr t2 ∧ parseTemp t2 = none)) :=
  c4_malformed_value_aborts_run "stationA;NaN\n".data (0, 13) "malformed number: \"NaN\""
    (by decide)

/-! ## Determinism up to map iteration order (C9) -/

theorem lookupM_perm (b2 b : SMap) (hp : b2.Perm b) : keysNodup b →
    ∀ q, lookupM b2 q = lookupM b q := by
  induction hp with
  | nil =>
    intro hb q
    rfl
  | cons x h ih =>
    rename_i l1 l2
    intro hb q
    obtain ⟨k, s⟩ := x
    have hb2 : keysNodup l2 := by
      unfold keysNodup at hb ⊢
      simp only [keysOf, List.map_cons, List.nodup_cons] at hb
      exact hb.2
    show (if q = k then some s else lookupM l1 q) = (if q = k then some s else lookupM l2 q)
    by_cases hq : q = k
    · rw [if_pos hq, if_pos hq]
    · rw [if_neg hq, if_neg hq]
      exact ih hb2 q
  | swap x y l =>
    intro hb q
    obtain ⟨k1, s1⟩ := x
    obtain ⟨k2, s2⟩ := y
    have hk : k2 ≠ k1 := by
      unfold keysNodup at hb
      simp only [keysOf, List.map_cons, List.nodup_cons, List.mem_cons] at hb
      intro he
      exact hb.1 (Or.inl he.symm)
    show (if q = k2 then some s2 else if q = k1 then some s1 else lookupM l q) =
      (if q = k1 then some s1 else if q = k2 then some s2 else lookupM l q)
    by_cases h1 : q = k1
    · subst h1
      have hne : ¬ q = k2 := fun he => hk (he.symm.trans rfl)
      rw [if_neg hne, if_pos rfl, if_pos rfl]
    · by_cases h2 : q = k2
      · rw [if_pos h2, if_neg h1, if_pos h2]
      · rw [if_neg h2, if_neg h1, if_neg h1, if_neg h2]
  | trans h1 h2 ih1 ih2 =>
    rename_i la lb lc
    intro hb q
    have hmid : keysNodup lb := by
      unfold keysNodup at hb ⊢
      exact (List.Perm.nodup_iff (List.Perm.map Prod.fst h2)).mpr hb
    exact (ih1 hmid q).trans (ih2 hb q)

theorem keysNodup_of_perm (b2 b : SMap) (hp : b2.Perm b) (hb : keysNodup b) :
    keysNodup b2 := by
  unfold keysNodup at hb ⊢
  exact (List.Perm.nodup_iff (List.Perm.map Prod.fst hp)).mpr hb

theorem keysNodup_of_equiv (a2 a : SMap) (heq : MapEquiv a2 a) (ha : keysNodup a) :
    keysNodup a2 := by
  unfold keysNodup at ha ⊢
  exact (List.Perm.nodup_iff heq.1).mpr ha

theorem mergeMap_congr (a a2 b b2 : SMap) (ha : keysNodup a) (haeq : MapEquiv a2 a)
    (hb : keysNodup b) (hbp : b2.Perm b) :
    MapEquiv (mergeMap a2 b2) (mergeMap a b) := by
  have ha2 : keysNodup a2 := keysNodup_of_equiv a2 a haeq ha
  have hb2 : keysNodup b2 := keysNodup_of_perm b2 b hbp hb
  constructor
  · rw [keysOf_mergeMap a2 b2 hb2, keysOf_mergeMap a b hb]
    apply List.Perm.append haeq.1
    have hfe : (keysOf b2).filter (fun k => !(decide (k ∈ keysOf a2))) =
        (keysOf b2).filter (fun k => !(decide (k ∈ keysOf a))) := by
      apply List.filter_congr
      intro x hx
      by_cases hxa : x ∈ keysOf a
      · have hxa2 : x ∈ keysOf a2 := (haeq.1.mem_iff).mpr hxa
        simp [hxa, hxa2]
      · have hxa2 : x ∉ keysOf a2 := fun hm => hxa ((haeq.1.mem_iff).mp hm)
        simp [hxa, hxa2]
    rw [hfe]
    exact List.Perm.filter _ (List.Perm.map Prod.fst hbp)
  · intro q
    rw [lookupM_mergeMap a2 b2 q, lookupM_mergeMap a b q, haeq.2 q,
      lookupM_perm b2 b hbp hb q]

theorem mergeAll_congr : ∀ (ls2 ls : List (Except String SMap)),
    List.Forall₂ exceptPerm ls2 ls → (∀ r ∈ ls, okNodup r) →
    ∀ (acc2 acc : SMap), MapEquiv acc2 acc → keysNodup acc →
    (match ls2.foldl mergeE (.ok acc2), ls.foldl mergeE (.ok acc) with
     | .error e2, .error e => e2 = e
     | .ok m2, .ok m => MapEquiv m2 m ∧ keysNodup m
     | _, _ => False) := by
  intro ls2 ls hf
  induction hf with
  | nil =>
    intro hnod acc2 acc heq hacc
    exact ⟨heq, hacc⟩
  | cons hr hrest ih =>
    rename_i r2 r ls2' ls'
    intro hnod acc2 acc heq hacc
    cases r2 with
    | error e2 =>
      cases r with
      | error e =>
        have he : e2 = e := hr
        subst he
        show (match (ls2'.foldl mergeE (mergeE (.ok acc2) (.error e2))),
            (ls'.foldl mergeE (mergeE (.ok acc) (.error e2))) with
          | .error e2, .error e => e2 = e
          | .ok m2, .ok m => MapEquiv m2 m ∧ keysNodup m
          | _, _ => False)
        rw [show mergeE (.ok acc2) (.error e2) = Except.error e2 from rfl,
          show mergeE (.ok acc) (.error e2) = Except.error e2 from rfl,
          foldl_mergeE_error, foldl_mergeE_error]
      | ok m => exact hr.elim
    | ok b2 =>
      cases r with
      | error e => exact hr.elim
      | ok b =>
        have hbp : b2.Perm b := hr
        have hbn : keysNodup b := hnod (.ok b) (by simp)
        have heq2 : MapEquiv (mergeMap acc2 b2) (mergeMap acc b) :=
          mergeMap_congr acc acc2 b b2 hacc heq hbn hbp
        have hacc2 : keysNodup (mergeMap acc b) :=
          keysNodup_mergeMap acc b hacc hbn
        have := ih (fun r hm => hnod r (by simp [hm])) (mergeMap acc2 b2) (mergeMap acc b)
          heq2 hacc2
        exact this

theorem keyLeB_total : ∀ (a b : Key), keyLeB a b = true ∨ keyLeB b a = true := by
  intro a
  induction a with
  | nil =>
    intro b
    left
    rfl
  | cons x xs ih =>
    intro b
    cases b with
    | nil =>
      right
      rfl
    | cons y ys =>
      show (if x < y then true else if y < x then false else keyLeB xs ys) = true ∨
        (if y < x then true else if x < y then false else keyLeB ys xs) = true
      rcases lt_trichotomy x y with h | h | h
      · left
        rw [if_pos h]
      · subst h
        rw [if_neg (lt_irrefl x), if_neg (lt_irrefl x), if_neg (lt_irrefl x),
          if_neg (lt_irrefl x)]
        exact ih ys
      · right
        rw [if_pos h]

theorem keyLeB_antisymm : ∀ (a b : Key), keyLeB a b = true → keyLeB b a = true → a = b := by
  intro a
  induction a with
  | nil =>
    intro b h1 h2
    cases b with
    | nil => rfl
    | cons y ys => cases h2
  | cons x xs ih =>
    intro b h1 h2
    cases b with
    | nil => cases h1
    | cons y ys =>
      rw [show keyLeB (x :: xs) (y :: ys) =
        (if x < y then true else if y < x then false else keyLeB xs ys) from rfl] at h1
      rw [show keyLeB (y :: ys) (x :: xs) =
        (if y < x then true else if x < y then false else keyLeB ys xs) from rfl] at h2
      rcases lt_trichotomy x y with h | h | h
      · rw [if_neg (lt_asymm h), if_pos h] at h2
        cases h2
      · subst h
        rw [if_neg (lt_irrefl x), if_neg (lt_irrefl x)] at h1 h2
        rw [ih ys h1 h2]
      · rw [if_neg (lt_asymm h), if_pos h] at h1
        cases h1

theorem keyLeB_trans : ∀ (a b c : Key), keyLeB a b = true → keyLeB b c = true →
    keyLeB a c = true := by
  intro a
  induction a with
  | nil =>
    intro b c h1 h2
    rfl
  | cons x xs ih =>
    intro b c h1 h2
    cases b with
    | nil => cases h1
    | cons y ys =>
      cases c with
      | nil => cases h2
      | cons z zs =>
        rw [show keyLeB (x :: xs) (y :: ys) =
          (if x < y then true else if y < x then false else keyLeB xs ys) from rfl] at h1
        rw [show keyLeB (y :: ys) (z :: zs) =
          (if y < z then true else if z < y then false else keyLeB ys zs) from rfl] at h2
        show (if x < z then true else if z < x then false else keyLeB xs zs) = true
        rcases lt_trichotomy y z with hyz | hyz | hyz
        · rcases lt_trichotomy x y with hxy | hxy | hxy
          · rw [if_pos (lt_trans hxy hyz)]
          · subst hxy
            rw [if_pos hyz]
          · rw [if_neg (lt_asymm hxy), if_pos hxy] at h1
            cases h1
        · subst hyz
          rcases lt_trichotomy x y with hxy | hxy | hxy
          · rw [if_pos hxy]
          · subst hxy
            rw [if_neg (lt_irrefl x)] at h1 h2 ⊢
            rw [if_neg (lt_irrefl x)] at h1 h2 ⊢
            exact ih ys zs h1 h2
          · rw [if_neg (lt_asymm hxy), if_pos hxy] at h1
            cases h1
        · rw [if_neg (lt_asymm hyz), if_pos hyz] at h2
          cases h2

instance : IsTotal Key keyLeP :=
  ⟨fun a b => keyLeB_total a b⟩

instance : IsTrans Key keyLeP :=
  ⟨fun a b c h1 h2 => keyLeB_trans a b c h1 h2⟩

instance : IsAntisymm Key keyLeP :=
  ⟨fun a b h1 h2 => keyLeB_antisymm a b h1 h2⟩

theorem sortKeys_perm_eq (ks1 ks2 : List Key) (hp : ks1.Perm ks2) :
    sortKeys ks1 = sortKeys ks2 := by
  exact List.eq_of_perm_of_sorted
    ((List.perm_insertionSort keyLeP ks1).trans
      (hp.trans (List.perm_insertionSort keyLeP ks2).symm))
    (List.sorted_insertionSort keyLeP ks1) (List.sorted_insertionSort keyLeP ks2)

theorem renderMap_congr (m2 m : SMap) (heq : MapEquiv m2 m) : renderMap m2 = renderMap m := by
  unfold renderMap
  rw [sortKeys_perm_eq (keysOf m2) (keysOf m) heq.1]
  congr 1
  congr 1
  congr 1
  apply List.map_eq_map_iff.mpr
  intro k hk
  rw [heq.2 k]

/-- C9: the run is deterministic, independent of hash-map iteration order and
of worker finish order: replacing each worker's local mapping by any
reordering of its entries (the iteration order of a Go map is unspecified)
leaves the merged statistics equivalent — same key set, same per-key
count/min/max/sum — and the rendered output byte-identical, because merging
folds the local results per key in worker-index order and the formatter
sorts the keys. -/
theorem c9_output_independent_of_iteration_order (data : List Char) (wk : Nat)
    (locals2 : List (Except String SMap))
    (hf : List.Forall₂ exceptPerm locals2 (localResults data wk)) :
    exceptEquiv (mergeAllE locals2) (finalMapping data wk) ∧
      (mergeAllE locals2).map renderMap = runOutput data wk := by
  have hnod : ∀ r ∈ localResults data wk, okNodup r := by
    intro r hm
    obtain ⟨c, hcm, hcp⟩ := List.mem_map.mp hm
    cases r with
    | error e => trivial
    | ok m => exact processRem_nodup (chunkSlice data c) [] keysNodup_nil m hcp
  have hrefl : MapEquiv [] [] := ⟨List.Perm.refl _, fun q => rfl⟩
  have hmain := mergeAll_congr locals2 (localResults data wk) hf hnod [] [] hrefl keysNodup_nil
  constructor
  · show exceptEquiv (locals2.foldl mergeE (.ok []))
      ((localResults data wk).foldl mergeE (.ok []))
    cases hx : locals2.foldl mergeE (.ok []) with
    | error e2 =>
      cases hy : (localResults data wk).foldl mergeE (.ok []) with
      | error e =>
        rw [hx, hy] at hmain
        exact hmain
      | ok m =>
        rw [hx, hy] at hmain
        exact hmain.elim
    | ok m2 =>
      cases hy : (localResults data wk).foldl mergeE (.ok []) with
      | error e =>
        rw [hx, hy] at hmain
        exact hmain.elim
      | ok m =>
        rw [hx, hy] at hmain
        exact hmain.1
  · show (locals2.foldl mergeE (.ok [])).map renderMap =
      ((localResults data wk).foldl mergeE (.ok [])).map renderMap
    cases hx : locals2.foldl mergeE (.ok []) with
    | error e2 =>
      cases hy : (localResults data wk).foldl mergeE (.ok []) with
      | error e =>
        rw [hx, hy] at hmain
        rw [hmain]
      | ok m =>
        rw [hx, hy] at hmain
        exact hmain.elim
    | ok m2 =>
      cases hy : (localResults data wk).foldl mergeE (.ok []) with
      | error e =>
        rw [hx, hy] at hmain
        exact hmain.elim
      | ok m =>
        rw [hx, hy] at hmain
        show Except.ok (renderMap m2) = Except.ok (renderMap m)
        rw [renderMap_congr m2 m hmain.1]

theorem c9_witness :
    exceptEquiv
      (mergeAllE [Except.ok [("a".data, ⟨1, 200, 200, 200⟩), ("b".data, ⟨2, 100, 300, 400⟩)]])
      (finalMapping "b;1.00\na;2.00\nb;3.00\n".data 1) ∧
      (mergeAllE
          [Except.ok [("a".data, ⟨1, 200, 200, 200⟩),
            ("b".data, ⟨2, 100, 300, 400⟩)]]).map renderMap =
        runOutput "b;1.00\na;2.00\nb;3.00\n".data 1 := by
  apply c9_output_independent_of_iteration_order
  rw [show localResults "b;1.00\na;2.00\nb;3.00\n".data 1 =
    [Except.ok [("b".data, ⟨2, 100, 300, 400⟩), ("a".data, ⟨1, 200, 200, 200⟩)]] from by decide]
  exact List.Forall₂.cons (by decide) List.Forall₂.nil
